import Mathlib

/-! # Webserver_in_C: string views, the HTTP request parser and the handlers

A shallow embedding of `src/string_view.h` and of the parsing functions, the
route dispatch and the request handlers of `src/main.c`.

* A `char` is modelled by its byte value, a `Nat` (0..255 for real bytes).  Only
  equality of bytes and the range test `'A' <= c && c <= 'Z'` are used by the
  code, so signedness of `char` does not matter.
* A `const char*` is a `Ptr`: the object (array of bytes) it points into and an
  offset into that object.  Pointer arithmetic moves the offset.
* `size_t` values are `Nat`.  Every subtraction on a `size_t` performed by the
  code is guarded so that it cannot wrap (noted at each place).
* A C function that updates `*sv` through its pointer argument returns the
  updated view as a second component.
-/

namespace Webserver

/-! ## Memory model -/

/-- A `const char*`: the object pointed into and the offset of the pointee. -/
structure Ptr where
  mem : List Nat
  off : Nat
deriving DecidableEq, Repr

/-- The null pointer. -/
def NULL : Ptr := ⟨[], 0⟩

/-- Pointer arithmetic `p + n`. -/
def Ptr.add (p : Ptr) (n : Nat) : Ptr := ⟨p.mem, p.off + n⟩

/-- The read `p[i]`.  Reads outside the object are not defined by C; the model
returns 0 there and every theorem that depends on a read states that the view
lies inside its object. -/
def Ptr.get (p : Ptr) (i : Nat) : Nat := p.mem.getD (p.off + i) 0

/-- The C string starting at `p`: the bytes of the object from `p` on. -/
def Ptr.cstr (p : Ptr) : List Nat := p.mem.drop p.off

/-- Byte values of an ASCII text. -/
def ascii (s : String) : List Nat := s.toList.map Char.toNat

/-! ## string_view.h -/

/-- The struct `string_view`: `const char* data; size_t size;`. -/
structure string_view where
  data : Ptr
  size : Nat
deriving DecidableEq, Repr

/-- The bytes a view denotes: `data[0] .. data[size-1]`. -/
def string_view.bytes (sv : string_view) : List Nat :=
  (sv.data.mem.drop sv.data.off).take sv.size

/-- The view lies inside the object it points into: `data + size` does not pass
the end of the buffer. -/
def string_view.InBuf (sv : string_view) : Prop :=
  sv.data.off + sv.size ≤ sv.data.mem.length

instance (sv : string_view) : Decidable sv.InBuf := by
  unfold string_view.InBuf; infer_instance

/-- `sv_create(data, size)`. -/
def sv_create (data : Ptr) (size : Nat) : string_view := ⟨data, size⟩

/-- The macro `SV_LITERAL(lit)`: a view of a string literal (which is stored
with its terminating NUL), of size `sizeof(lit) - 1`. -/
def SV_LITERAL (lit : List Nat) : string_view := ⟨⟨lit ++ [0], 0⟩, lit.length⟩

/-- `sv_chop(sv, n)`: the returned view and the updated `*sv`.
After the guard `sv->size >= n`, so `sv->size - n` does not wrap. -/
def sv_chop (sv : string_view) (n : Nat) : string_view × string_view :=
  let sv1 : string_view := if sv.size < n then ⟨sv.data, n⟩ else sv
  let result := sv_create sv1.data n
  (result, ⟨sv1.data.add n, sv1.size - n⟩)

/-- The loop `while (i < sv->size && sv->data[i] != limiter) i += 1;` of
`sv_chop_char`.  The first argument is `sv->size - i`, the number of bytes not
yet looked at: the test `i < sv->size` fails exactly when it is 0. -/
def sv_chop_char_loop (data : Ptr) (limiter : Nat) : Nat → Nat → Nat
  | 0, i => i
  | left + 1, i =>
    if data.get i ≠ limiter then sv_chop_char_loop data limiter left (i + 1) else i

/-- `sv_chop_char(sv, limiter)`: the returned view and the updated `*sv`.
The loop leaves `i <= sv->size`, so neither subtraction wraps. -/
def sv_chop_char (sv : string_view) (limiter : Nat) : string_view × string_view :=
  let i := sv_chop_char_loop sv.data limiter sv.size 0
  let result := sv_create sv.data i
  if i < sv.size then
    (result, ⟨sv.data.add (i + 1), sv.size - (i + 1)⟩)
  else
    (result, ⟨sv.data.add i, sv.size - i⟩)

/-- The library function `memcmp(a, b, n)`: 0 when the first `n` bytes agree,
otherwise the sign of the difference of the first pair that differs. -/
def memcmp (a b : Ptr) : Nat → Nat → Int
  | 0, _ => 0
  | left + 1, i =>
    if a.get i = b.get i then memcmp a b left (i + 1)
    else if a.get i < b.get i then -1 else 1

/-- The case folding of `sv_equals`:
`'A' <= c && c <= 'Z' ? c + 32 : c`. -/
def fold_case (c : Nat) : Nat := if 65 ≤ c ∧ c ≤ 90 then c + 32 else c

/-- The `for` loop of the case-insensitive branch of `sv_equals`; the first
argument is `sv.size - i`. -/
def sv_equals_loop (a b : Ptr) : Nat → Nat → Bool
  | 0, _ => true
  | left + 1, i =>
    let x := fold_case (a.get i)
    let y := fold_case (b.get i)
    if x ≠ y then false else sv_equals_loop a b left (i + 1)

/-- `sv_equals(sv, other, ignorecase)`. -/
def sv_equals (sv other : string_view) (ignorecase : Bool) : Bool :=
  if sv.size ≠ other.size then false
  else if !ignorecase then memcmp sv.data other.data sv.size 0 == 0
  else sv_equals_loop sv.data other.data sv.size 0

/-- `sv_has_prefix(sv, other, ignorecase)`. -/
def sv_has_prefix (sv other : string_view) (ignorecase : Bool) : Bool :=
  if sv.size < other.size then false
  else
    let tempstr := sv_create sv.data other.size
    sv_equals tempstr other ignorecase

/-- `sv_chop_prefix(sv, other)`: the returned view and the updated `*sv`. -/
def sv_chop_prefix (sv other : string_view) : string_view × string_view :=
  if ! sv_has_prefix sv other true then (sv_create NULL 0, sv)
  else sv_chop sv other.size

/-! ## The C library function used by the parser -/

/-- The test `isspace(c)` in the C locale: space, `\t`, `\n`, `\v`, `\f`, `\r`. -/
def isspace (c : Nat) : Bool := c = 32 || (9 ≤ c && c ≤ 13)

/-- The test `isdigit(c)`. -/
def isdigit (c : Nat) : Bool := 48 ≤ c && c ≤ 57

/-- The largest `unsigned long` (and `size_t`) of the LP64 platforms the server
is written for. -/
def ULONG_MAX : Nat := 2 ^ 64 - 1

/-- The number denoted by a list of decimal digits. -/
def decimal_value (ds : List Nat) : Nat := ds.foldl (fun acc d => acc * 10 + (d - 48)) 0

/-- The library function `strtoul(s, NULL, 10)` on the C string `s` (ISO C
7.22.1.4): skip white space, accept one optional sign, convert the longest run
of decimal digits; no digits give 0; a value that does not fit gives
`ULONG_MAX`; a minus sign negates in `unsigned long`. -/
def strtoul_str (s : List Nat) : Nat :=
  let s1 := s.dropWhile isspace
  let signed : Bool × List Nat :=
    match s1 with
    | 43 :: t => (false, t)
    | 45 :: t => (true, t)
    | _ => (false, s1)
  let ds := signed.2.takeWhile isdigit
  if ds = [] then 0
  else
    let v := decimal_value ds
    if ULONG_MAX < v then ULONG_MAX
    else if signed.1 then (2 ^ 64 - v) % 2 ^ 64 else v

/-- The call `strtoul(p, NULL, 10)`: it reads the C string at `p`, whatever
view the pointer was taken from. -/
def strtoul (p : Ptr) : Nat := strtoul_str p.cstr

/-! ## main.c: parsing functions -/

/-- How a call ends: it returns, or the process ends in `exit(EXIT_FAILURE)`,
or the model was not given enough loop iterations. -/
inductive Outcome (α : Type) where
  | ret : α → Outcome α
  | exit_failure : Outcome α
  | out_of_fuel : Outcome α
deriving DecidableEq, Repr

/-- What `parse_request_line` stores through its pointer arguments. -/
structure request_line where
  request : string_view
  method : string_view
  path : string_view
  protocol : string_view
deriving DecidableEq, Repr

/-- `parse_request_line(request, method, path, protocol)`; `none` is the branch
that ends the process with `exit(EXIT_FAILURE)`. -/
def parse_request_line (request : string_view) : Option request_line :=
  let c0 := sv_chop_char request 10
  if c0.1.size = 0 then none
  else
    let c1 := sv_chop_char c0.1 32
    let c2 := sv_chop_char c1.2 32
    let c3 := sv_chop_char c2.2 13
    some ⟨c0.2, c1.1, c2.1, c3.1⟩

/-- The variables of the loop of `parse_headers`. -/
structure headers_state where
  request : string_view
  user_agent : string_view
  content_length : Nat
deriving DecidableEq, Repr

/-- The statements `if (header_line.size > 0 && header_line.data[header_line.size
- 1] == '\r') header_line.size--;` of `parse_headers`. -/
def header_strip_cr (header_line : string_view) : string_view :=
  if header_line.size > 0 ∧ header_line.data.get (header_line.size - 1) = 13 then
    ⟨header_line.data, header_line.size - 1⟩
  else header_line

/-- The statements of `parse_headers` that split a header line:
`key = sv_chop_char(&header_line, ':')`, then one leading space is removed with
`sv_chop(&header_line, 1)`, then `value = header_line`.  Returns key and
value. -/
def header_split (header_line : string_view) : string_view × string_view :=
  let k := sv_chop_char header_line 58
  let value : string_view :=
    if k.2.size > 0 ∧ k.2.data.get 0 = 32 then (sv_chop k.2 1).2 else k.2
  (k.1, value)

/-- The loop `while (request->size > 0) { ... }` of `parse_headers`, run for at
most the given number of iterations; `none` when they do not suffice. -/
def parse_headers_loop : Nat → headers_state → Option headers_state
  | 0, _ => none
  | fuel + 1, st =>
    if st.request.size > 0 then
      let c := sv_chop_char st.request 10
      let header_line := header_strip_cr c.1
      if header_line.size = 0 then some ⟨c.2, st.user_agent, st.content_length⟩
      else
        let kv := header_split header_line
        if sv_equals kv.1 (SV_LITERAL (ascii "User-Agent")) true then
          parse_headers_loop fuel ⟨c.2, kv.2, st.content_length⟩
        else if sv_equals kv.1 (SV_LITERAL (ascii "Content-Length")) true then
          parse_headers_loop fuel ⟨c.2, st.user_agent, strtoul kv.2.data⟩
        else
          parse_headers_loop fuel ⟨c.2, st.user_agent, st.content_length⟩
    else some st

/-- `parse_headers(request, content_length)`.  Every iteration of the loop
removes at least one byte from `*request`, so `request->size + 1` iterations
always suffice (`parse_headers_returns`). -/
def parse_headers (request : string_view) : Option headers_state :=
  parse_headers_loop (request.size + 1) ⟨request, SV_LITERAL (ascii ""), 0⟩

/-- What `parse_http_request` returns and stores through its pointer
arguments. -/
structure http_request where
  method : string_view
  path : string_view
  protocol : string_view
  user_agent : string_view
  content_length : Nat
  body : string_view
deriving DecidableEq, Repr

/-- `parse_http_request(raw_request, raw_request_len, ...)`.  The views only
shrink while parsing, so the `size_t` subtractions do not wrap. -/
def parse_http_request (raw_request : Ptr) (raw_request_len : Nat) : Outcome http_request :=
  let temp := sv_create raw_request raw_request_len
  let initial_size := temp.size
  match parse_request_line temp with
  | none => Outcome.exit_failure
  | some rl =>
    let request_line_consumed := initial_size - rl.request.size
    let initial_size := rl.request.size
    match parse_headers rl.request with
    | none => Outcome.out_of_fuel
    | some st =>
      let headers_consumed := initial_size - st.request.size
      let total_consumed := request_line_consumed + headers_consumed
      Outcome.ret ⟨rl.method, rl.path, rl.protocol, st.user_agent, st.content_length,
        sv_create (raw_request.add total_consumed) (raw_request_len - total_consumed)⟩

/-- The value a call returned, if it returned. -/
def Outcome.returned {α : Type} : Outcome α → Option α
  | Outcome.ret a => some a
  | _ => none

/-- The receive buffer of `handle_client` after `recv` stored the bytes `raw`
and the code stored `buffer[bytes_received] = 0`; `junk` is whatever the rest
of the array holds. -/
def recv_buffer (raw junk : List Nat) : Ptr := ⟨raw ++ 0 :: junk, 0⟩

/-- A view of the bytes `l`, stored in an object of their own. -/
def view (l : List Nat) : string_view := ⟨⟨l, 0⟩, l.length⟩

/-! ## Specification-side notions -/

/-- Two bytes are case variants of each other: they are the same byte, or the
same ASCII letter in the two cases. -/
def case_variant (x y : Nat) : Prop :=
  x = y ∨ (65 ≤ x ∧ x ≤ 90 ∧ y = x + 32) ∨ (97 ≤ x ∧ x ≤ 122 ∧ x = y + 32)

/-- The map that sends each of the letters `A`..`Z` to the letter `a`..`z` at
the same place of the alphabet and leaves every other byte alone. -/
def ascii_lower (c : Nat) : Nat :=
  (ascii "abcdefghijklmnopqrstuvwxyz").getD
    ((ascii "ABCDEFGHIJKLMNOPQRSTUVWXYZ").indexOf c) c

/-- The lines of a text: the pieces between its `\n` bytes (the last piece is
what follows the last `\n`, possibly nothing). -/
def split_lines : List Nat → List (List Nat)
  | [] => [[]]
  | c :: t =>
    if c = 10 then [] :: split_lines t
    else
      match split_lines t with
      | [] => [[c]]
      | l :: ls => (c :: l) :: ls

/-- A line without one trailing `\r`, if it has one. -/
def strip_cr (l : List Nat) : List Nat :=
  if l.getLast? = some 13 then l.dropLast else l

/-- An empty header line: `\n` or `\r\n` on its own. -/
def is_blank (l : List Nat) : Bool := strip_cr l = []

/-- The name of a header line: what stands before its first colon. -/
def header_key (l : List Nat) : List Nat := l.takeWhile (· ≠ 58)

/-- The value of a header line: what stands after its first colon, without one
leading space. -/
def header_value (l : List Nat) : List Nat :=
  match (l.dropWhile (· ≠ 58)).drop 1 with
  | 32 :: v => v
  | r => r

/-- The header line has the given name, compared ignoring ASCII case. -/
def has_name (name : String) (l : List Nat) : Bool :=
  (header_key l).map ascii_lower = (ascii name).map ascii_lower

/-- The header lines of a header block: its lines, each without its trailing
`\r`, up to the first empty one. -/
def header_lines (block : List Nat) : List (List Nat) :=
  ((split_lines block).map strip_cr).takeWhile (· ≠ [])

/-- The bytes that follow the first empty line of a block; nothing when there
is no empty line. -/
def after_blank_line (block : List Nat) : List Nat :=
  [10].intercalate (((split_lines block).dropWhile (fun l => ! is_blank l)).drop 1)

/-- The number denoted by the decimal digits `ds`, the most significant
first. -/
def number_of_digits (ds : List Nat) : Nat := Nat.ofDigits 10 ((ds.map (· - 48)).reverse)

/-- The content length a header block announces: 0 without a `Content-Length`
line; otherwise what `strtoul` yields on the value of the last such line, taken
on its own. -/
def announced_content_length (ls : List (List Nat)) : Nat :=
  match (ls.filter (has_name "Content-Length")).getLast? with
  | none => 0
  | some l => strtoul_str (header_value l)

/-- The loop variables of `parse_headers` after one more header line: `line` is
the line without `\n` and `\r`, `cstr` the C string at the line's value (the
value and the bytes of the buffer after it), `value` the view of that value and
`request` the new remainder. -/
def after_header_line (st : headers_state) (request value : string_view)
    (line cstr : List Nat) : headers_state :=
  if has_name "User-Agent" line then ⟨request, value, st.content_length⟩
  else if has_name "Content-Length" line then ⟨request, st.user_agent, strtoul_str cstr⟩
  else ⟨request, st.user_agent, st.content_length⟩

/-- The content length after the header lines `ls`, starting from `cl`: the
number announced by the last `Content-Length` line, or `cl` without one. -/
def content_length_from (cl : Nat) (ls : List (List Nat)) : Nat :=
  match (ls.filter (has_name "Content-Length")).getLast? with
  | none => cl
  | some l => strtoul_str (header_value l)

/-- The value of a header has a byte that is not white space. -/
def has_nonspace (value : List Nat) : Prop := ∃ c ∈ value, isspace c = false

/-- The value of a header starts with a byte that is neither white space nor a
sign. -/
def plain_start (value : List Nat) : Prop :=
  ∃ c v, value = c :: v ∧ isspace c = false ∧ c ≠ 43 ∧ c ≠ 45

/-! ## main.c: the connection, the file store and the response functions -/

/-- The macro `BUFFER_SIZE`. -/
def BUFFER_SIZE : Nat := 4096

/-- The C string stored in a `char` array: its bytes up to the first NUL. -/
def c_str (l : List Nat) : List Nat := l.takeWhile (· ≠ 0)

/-- What `snprintf(buf, size, ...)` stores in front of the terminating NUL when
the conversions produce `out`: at most `size - 1` bytes. -/
def c_snprintf (size : Nat) (out : List Nat) : List Nat := out.take (size - 1)

/-- The decimal digits of `n`; the first argument bounds the number of digits
produced. -/
def decimal_digits : Nat → Nat → List Nat
  | 0, _ => []
  | fuel + 1, n =>
    if n < 10 then [48 + n] else decimal_digits fuel (n / 10) ++ [48 + n % 10]

/-- The conversions `%zu` and `%ld` (of a value that is not negative): the
decimal digits of `n`, which are never more than `n + 1`. -/
def fmt_decimal (n : Nat) : List Nat := decimal_digits (n + 1) n

/-- The conversion `%.*s` with the arguments of `SV_ARG(sv)`: the bytes at
`sv.data`, at most `sv.size` of them and none from the first NUL on.  (`SV_ARG`
casts the size to `int`; the sizes of the server are below 2^31.) -/
def fmt_sv (sv : string_view) : List Nat := c_str sv.bytes

/-- What one call of `recv` returned: the bytes stored in the buffer (none when
the peer has closed the connection: return value 0), or an error (return value
-1).  The bytes are never more than the call asked for. -/
inductive recv_result where
  | data : List Nat → recv_result
  | error : recv_result
deriving DecidableEq, Repr

/-- The return value of `recv`. -/
def recv_result.bytes_read : recv_result → Int
  | recv_result.data l => l.length
  | recv_result.error => -1

/-- The bytes `recv` stored. -/
def recv_result.stored : recv_result → List Nat
  | recv_result.data l => l
  | recv_result.error => []

/-- What the handlers act on: the files of the server (name and contents; the
first entry of a name counts), the names that cannot be opened for writing, the
results of the calls of `recv` still to come on the connection, the bytes sent
on the connection so far, the number of calls of `close(client_fd)`, and the
names passed to `fopen` so far. -/
structure world where
  files : List (List Nat × List Nat)
  readonly : List (List Nat)
  incoming : List recv_result
  sent : List Nat
  closes : Nat
  fopens : List (List Nat)
deriving DecidableEq, Repr

/-- `send(client_fd, bytes, n, 0)`, taken to send all `n` bytes. -/
def send (w : world) (bytes : List Nat) : world := { w with sent := w.sent ++ bytes }

/-- `close(client_fd)`. -/
def close_fd (w : world) : world := { w with closes := w.closes + 1 }

/-- The contents of a file, if `fopen(name, "rb")` succeeds. -/
def file_contents (w : world) (name : List Nat) : Option (List Nat) := w.files.lookup name

/-- The file store with the contents of `name` replaced. -/
def write_file (w : world) (name contents : List Nat) : world :=
  { w with files := (name, contents) :: w.files }

/-- The call `fopen(name, mode)` is recorded. -/
def log_fopen (w : world) (name : List Nat) : world := { w with fopens := w.fopens ++ [name] }

/-- The response literal of `send_200`. -/
def response_200 : List Nat :=
  ascii "HTTP/1.1 200 OK\r\n\r\n" ++
  ascii "<html><body><h1>Welcome To My Homepage</h1></body></html>"

/-- The response literal of `send_201`. -/
def response_201 : List Nat := ascii "HTTP/1.1 201 Created\r\n\r\n"

/-- The response literal of `send_400`. -/
def response_400 : List Nat := ascii "HTTP/1.1 400 Bad Request\r\n\r\n"

/-- The response literal of `send_403`. -/
def response_403 : List Nat := ascii "HTTP/1.1 403 Forbidden\r\n\r\n"

/-- The response literal of `send_404`. -/
def response_404 : List Nat :=
  ascii "HTTP/1.1 404 Not Found\r\n\r\n" ++
  ascii "<html><body><h1>NOT FOUND 404</h1></body></html>"

/-- The response literal of `send_405`. -/
def response_405 : List Nat := ascii "HTTP/1.1 405 Method Not Allowed\r\n\r\n"

/-- The response literal of `send_500`. -/
def response_500 : List Nat := ascii "HTTP/1.1 500 Internal Server Error\r\n\r\n"

/-- `send_200(client_fd)`: `send(client_fd, response, strlen(response), 0)`. -/
def send_200 (w : world) : world := send w (c_str response_200)

/-- `send_201(client_fd)`. -/
def send_201 (w : world) : world := send w (c_str response_201)

/-- `send_400(client_fd)`. -/
def send_400 (w : world) : world := send w (c_str response_400)

/-- `send_403(client_fd)`. -/
def send_403 (w : world) : world := send w (c_str response_403)

/-- `send_404(client_fd)`. -/
def send_404 (w : world) : world := send w (c_str response_404)

/-- `send_405(client_fd)`. -/
def send_405 (w : world) : world := send w (c_str response_405)

/-- `send_500(client_fd)`. -/
def send_500 (w : world) : world := send w (c_str response_500)

/-! ## main.c: request handlers -/

/-- `handle_root(client_fd)`. -/
def handle_root (w : world) : world := send_200 w

/-- `handle_echo(client_fd, path)`: the prefix is chopped off `*path`, the
response is formatted into `char response[4096]` and `strlen(response)` bytes of
it are sent. -/
def handle_echo (w : world) (path : string_view) : world :=
  let echo_prefix := SV_LITERAL (ascii "/echo/")
  let path := ( sv_chop_prefix path echo_prefix).2
  let response := c_snprintf 4096
    (ascii "HTTP/1.1 200 OK\r\n" ++ ascii "Content-Type: text/plain\r\n" ++
      ascii "Content-Length: " ++ fmt_decimal path.size ++ ascii "\r\n\r\n" ++ fmt_sv path)
  send w (c_str response)

/-- `handle_user_agent(client_fd, user_agent)`. -/
def handle_user_agent (w : world) (user_agent : string_view) : world :=
  let response := c_snprintf 4096
    (ascii "HTTP/1.1 200 OK\r\n" ++ ascii "Content-Type: text/plain\r\n" ++
      ascii "Content-Length: " ++ fmt_decimal user_agent.size ++ ascii "\r\n\r\n" ++
      fmt_sv user_agent)
  send w (c_str response)

/-- The part of `html_template` in `handle_image_page` before the conversion
`%zu`. -/
def html_template_head : List Nat :=
  ascii "HTTP/1.1 200 OK\r\n" ++ ascii "Content-Type: text/html\r\n" ++ ascii "Content-Length: "

/-- The part of `html_template` in `handle_image_page` after the conversion
`%zu`: the end of the header line, the empty line and the HTML page. -/
def html_template_tail : List Nat :=
  ascii "\r\n" ++ ascii "\r\n" ++
  ascii "<!DOCTYPE html>\n" ++ ascii "<html>\n" ++ ascii "<head>\n" ++
  ascii "    <title>Image Viewer</title>\n" ++ ascii "</head>\n" ++ ascii "<body>\n" ++
  ascii "    <h1>Image</h1>\n" ++
  ascii "    <img src=\"/files/image.jpg\" alt=\"Example Image\">\n" ++
  ascii "</body>\n" ++ ascii "</html>"

/-- The string `html_template` of `handle_image_page`. -/
def html_template : List Nat := html_template_head ++ ascii "%zu" ++ html_template_tail

/-- `handle_image_page(client_fd)`: `html_length = strlen(html_template) - 2`,
then the template is formatted with `html_length` and sent. -/
def handle_image_page (w : world) : world :=
  let html_length := (c_str html_template).length - 2
  let response := c_snprintf 4096
    (html_template_head ++ fmt_decimal html_length ++ html_template_tail)
  send w (c_str response)

/-- The library function `strrchr(s, c)` on a C string: the part of `s` from
the last `c` on, if there is one. -/
def c_strrchr : List Nat → Nat → Option (List Nat)
  | [], _ => none
  | x :: t, c =>
    match c_strrchr t c with
    | some r => some r
    | none => if x = c then some (x :: t) else none

/-- The library function `strstr(hay, needle)` on C strings, as the test
`strstr(hay, needle) != NULL`. -/
def c_strstr (hay needle : List Nat) : Bool := hay.tails.any (fun t => needle.isPrefixOf t)

/-- `get_mime_type(filename)`; `strcmp(ext, lit) == 0` is equality of C
strings. -/
def get_mime_type (filename : List Nat) : List Nat :=
  match c_strrchr (c_str filename) 46 with
  | none => ascii "application/octet-stream"
  | some ext =>
    if ext = ascii ".jpg" ∨ ext = ascii ".jpeg" then ascii "image/jpeg"
    else if ext = ascii ".png" then ascii "image/png"
    else if ext = ascii ".gif" then ascii "image/gif"
    else if ext = ascii ".html" then ascii "text/html"
    else if ext = ascii ".txt" then ascii "text/plain"
    else ascii "application/octet-stream"

/-- The loop `while ((bytes_read = fread(buffer, 1, BUFFER_SIZE, fp)) > 0)
send(client_fd, buffer, bytes_read, 0);` of `serve_file`, on the part of the file
not yet read, run for at most the given number of iterations. -/
def serve_file_loop : Nat → List Nat → world → Outcome world
  | 0, _, _ => Outcome.out_of_fuel
  | fuel + 1, unread, w =>
    let buffer := unread.take BUFFER_SIZE
    if buffer.length > 0 then serve_file_loop fuel (unread.drop BUFFER_SIZE) (send w buffer)
    else Outcome.ret w

/-- `serve_file(client_fd, file_path)`; `file_path` is the C string passed.
Every iteration of the loop reads at least one byte, so one iteration more than
the file has bytes always suffices (`serve_file_loop_returns`). -/
def serve_file (w : world) (file_path : List Nat) : Outcome world :=
  let w := log_fopen w file_path
  match file_contents w file_path with
  | none => Outcome.ret (send_404 w)
  | some contents =>
    let file_size := contents.length
    let mime_type := get_mime_type file_path
    let response_header := c_snprintf 4096
      (ascii "HTTP/1.1 200 OK\r\n" ++ ascii "Content-Type: " ++ mime_type ++ ascii "\r\n" ++
        ascii "Content-Length: " ++ fmt_decimal file_size ++ ascii "\r\n" ++ ascii "\r\n")
    let w := send w (c_str response_header)
    serve_file_loop (contents.length + 1) contents w

/-- The loop `while (bytes_written < content_length) { ... }` of `post_file`;
`written` is what was written to the file so far.  One result of `recv` is used
per iteration; when none is left the call of `recv` does not return
(`out_of_fuel`). -/
def post_file_loop (file_path : List Nat) (content_length : Nat) :
    List recv_result → world → List Nat → Nat → Outcome world
  | [], w, _, bytes_written =>
    if bytes_written < content_length then Outcome.out_of_fuel
    else Outcome.ret (send_201 { w with incoming := [] })
  | r :: rest, w, written, bytes_written =>
    if bytes_written < content_length then
      if r.bytes_read ≤ 0 then Outcome.ret (close_fd (send_400 { w with incoming := rest }))
      else
        post_file_loop file_path content_length rest
          (write_file w file_path (written ++ r.stored)) (written ++ r.stored)
          (bytes_written + r.stored.length)
    else Outcome.ret (send_201 { w with incoming := r :: rest })

/-- `post_file(client_fd, file_path, body, content_length)`; `fopen(file_path,
"wb")` creates or empties the file, `fwrite` appends to it. -/
def post_file (w : world) (file_path : List Nat) (body : string_view)
    (content_length : Nat) : Outcome world :=
  let w := log_fopen w file_path
  if file_path ∈ w.readonly then Outcome.ret (close_fd (send_500 w))
  else
    let w := write_file w file_path []
    if body.size > 0 then
      post_file_loop file_path content_length w.incoming
        (write_file w file_path body.bytes) body.bytes body.size
    else
      post_file_loop file_path content_length w.incoming w [] 0

/-- The loop `while (path->size > 0 && path->data[0] == '/') sv_chop(path, 1);`
of `handle_file_request`.  The first argument is `path->size`, which every
iteration lowers by one: the test `path->size > 0` fails exactly when it is 0. -/
def strip_slashes : Nat → string_view → string_view
  | 0, path => path
  | left + 1, path =>
    if path.data.get 0 = 47 then strip_slashes left (sv_chop path 1).2 else path

/-- The start of `handle_file_request`: the path after
`sv_chop_prefix(path, files_prefix)` and the loop that removes leading slashes. -/
def file_request_path (path : string_view) : string_view :=
  let files_prefix := SV_LITERAL (ascii "/files/")
  let path := ( sv_chop_prefix path files_prefix).2
  strip_slashes path.size path

/-- `handle_file_request(client_fd, method, path, body, content_length)`.
`filename` holds the bytes of the path and a NUL; `strstr` and `%s` read it as a
C string. -/
def handle_file_request (w : world) (method path body : string_view)
    (content_length : Nat) : Outcome world :=
  let path := file_request_path path
  if path.size ≥ 4096 then Outcome.ret (close_fd (send_400 w))
  else
    let filename := path.bytes ++ [0]
    if c_strstr (c_str filename) (ascii "..") then Outcome.ret (close_fd (send_403 w))
    else
      let file_path := c_snprintf 4096 (ascii "./files/" ++ c_str filename)
      if sv_equals method (SV_LITERAL (ascii "GET")) true then serve_file w file_path
      else if sv_equals method (SV_LITERAL (ascii "POST")) true then
        post_file w file_path body content_length
      else Outcome.ret (send_405 w)

/-- The targets of the routes of `handle_client`. -/
inductive route_target where
  | root | echo | user_agent | files | image | not_found
deriving DecidableEq, Repr

/-- The tests of the `if` chain under `// Route requests` in `handle_client`. -/
def dispatch (path : string_view) : route_target :=
  if sv_equals path (SV_LITERAL (ascii "/")) true then route_target.root
  else if sv_has_prefix path (SV_LITERAL (ascii "/echo/")) true then route_target.echo
  else if sv_equals path (SV_LITERAL (ascii "/user-agent")) true then route_target.user_agent
  else if sv_has_prefix path (SV_LITERAL (ascii "/files/")) true then route_target.files
  else if sv_equals path (SV_LITERAL (ascii "/image")) true then route_target.image
  else route_target.not_found

/-- The branches of the `if` chain under `// Route requests` in
`handle_client`. -/
def handle_route (w : world) (r : http_request) : Outcome world :=
  match dispatch r.path with
  | route_target.root => Outcome.ret (handle_root w)
  | route_target.echo => Outcome.ret (handle_echo w r.path)
  | route_target.user_agent => Outcome.ret (handle_user_agent w r.user_agent)
  | route_target.files => handle_file_request w r.method r.path r.body r.content_length
  | route_target.image => Outcome.ret (handle_image_page w)
  | route_target.not_found => Outcome.ret (send_404 w)

/-- `handle_client(arg)`: one `recv` of at most `BUFFER_SIZE - 1` bytes into
`buffer`, the NUL stored after them, the request parsed and routed, the
connection closed.  `junk` is what the rest of `buffer` holds. -/
def handle_client (w : world) (junk : List Nat) : Outcome world :=
  match w.incoming with
  | [] => Outcome.out_of_fuel
  | r :: rest =>
    let w : world := { w with incoming := rest }
    if r.bytes_read ≤ 0 then Outcome.ret (close_fd w)
    else
      let buffer := recv_buffer r.stored junk
      match parse_http_request buffer r.stored.length with
      | Outcome.exit_failure => Outcome.exit_failure
      | Outcome.out_of_fuel => Outcome.out_of_fuel
      | Outcome.ret req =>
        match handle_route w req with
        | Outcome.ret w1 => Outcome.ret (close_fd w1)
        | Outcome.exit_failure => Outcome.exit_failure
        | Outcome.out_of_fuel => Outcome.out_of_fuel

/-- A connection on which the first `recv` returns `raw`, and an empty file
store. -/
def connection (raw : List Nat) : world := ⟨[], [], [recv_result.data raw], [], 0, []⟩

/-! ## Specification-side notions: the route table -/

/-- How a row of the route table matches: the whole path, or its start. -/
inductive match_kind where
  | whole | start
deriving DecidableEq, Repr

/-- A row of the route table. -/
structure route where
  kind : match_kind
  pattern : List Nat
  target : route_target
deriving DecidableEq, Repr

/-- The route table of the specification, in its order. -/
def route_table : List route :=
  [⟨match_kind.whole, ascii "/", route_target.root⟩,
   ⟨match_kind.start, ascii "/echo/", route_target.echo⟩,
   ⟨match_kind.whole, ascii "/user-agent", route_target.user_agent⟩,
   ⟨match_kind.start, ascii "/files/", route_target.files⟩,
   ⟨match_kind.whole, ascii "/image", route_target.image⟩]

/-- A row matches a path, comparing ignoring ASCII case. -/
def route_matches (r : route) (path : List Nat) : Bool :=
  match r.kind with
  | match_kind.whole => path.map ascii_lower = r.pattern.map ascii_lower
  | match_kind.start =>
    (path.take r.pattern.length).map ascii_lower = r.pattern.map ascii_lower

/-- The target of the first row of a table that matches the path; the 404
response when no row matches. -/
def first_match (table : List route) (path : List Nat) : route_target :=
  match table.find? (fun r => route_matches r path) with
  | some r => r.target
  | none => route_target.not_found

/-- The response the specification gives for a `text/plain` body: status line,
the two headers, an empty line and the body, with the length of the body in
decimal as `Content-Length`. -/
def text_plain_response (body : List Nat) : List Nat :=
  ascii "HTTP/1.1 200 OK\r\n" ++ ascii "Content-Type: text/plain\r\n" ++
    ascii "Content-Length: " ++ fmt_decimal body.length ++ ascii "\r\n\r\n" ++ body

/-- The user agent a header block announces: the value of its last `User-Agent`
line, nothing without such a line. -/
def announced_user_agent (ls : List (List Nat)) : List Nat :=
  match (ls.filter (has_name "User-Agent")).getLast? with
  | none => []
  | some l => header_value l

/-- The user agent after the header lines `ls`, starting from `ua`. -/
def user_agent_from (ua : List Nat) (ls : List (List Nat)) : List Nat :=
  match (ls.filter (has_name "User-Agent")).getLast? with
  | none => ua
  | some l => header_value l

/-- The HTML page of the image route: what follows the empty line in
`html_template`. -/
def image_page_body : List Nat :=
  ascii "<!DOCTYPE html>\n<html>\n<head>\n    <title>Image Viewer</title>\n</head>\n" ++
  ascii "<body>\n    <h1>Image</h1>\n" ++
  ascii "    <img src=\"/files/image.jpg\" alt=\"Example Image\">\n" ++
  ascii "</body>\n</html>"

/-! ## Basic facts about views -/

theorem bytes_length (sv : string_view) (h : sv.InBuf) : sv.bytes.length = sv.size := by
  unfold string_view.InBuf at h
  simp only [string_view.bytes, List.length_take, List.length_drop]
  omega

theorem bytes_getElem? (sv : string_view) (h : sv.InBuf) (j : Nat) (hj : j < sv.size) :
    sv.bytes[j]? = some (sv.data.get j) := by
  unfold string_view.InBuf at h
  have hlt : sv.data.off + j < sv.data.mem.length := by omega
  simp only [string_view.bytes, Ptr.get, List.getElem?_take, List.getElem?_drop, hj, if_true,
    List.getD_eq_getElem?_getD, List.getElem?_eq_getElem hlt, Option.getD_some]

theorem get_eq_cstr (p : Ptr) (j : Nat) : p.get j = p.cstr.getD j 0 := by
  simp [Ptr.get, Ptr.cstr, List.getD_eq_getElem?_getD, List.getElem?_drop]

theorem cstr_add (p : Ptr) (n : Nat) : (p.add n).cstr = p.cstr.drop n := by
  simp [Ptr.add, Ptr.cstr, List.drop_drop, Nat.add_comm]

theorem bytes_eq_cstr (sv : string_view) : sv.bytes = sv.data.cstr.take sv.size := rfl

theorem size_le_cstr_length (sv : string_view) (h : sv.InBuf) :
    sv.size ≤ sv.data.cstr.length := by
  unfold string_view.InBuf at h
  unfold Ptr.cstr
  simp only [List.length_drop]
  omega

/-- A view inside its buffer: the C string at `data` is the view's bytes
followed by the rest of the buffer. -/
theorem cstr_eq_bytes_append (sv : string_view) :
    sv.data.cstr = sv.bytes ++ sv.data.cstr.drop sv.size := by
  rw [bytes_eq_cstr, List.take_append_drop]

theorem get_of_cstr_append (p : Ptr) (a t : List Nat) (h : p.cstr = a ++ t) (j : Nat)
    (hj : j < a.length) : p.get j = a.getD j 0 := by
  rw [get_eq_cstr, h, List.getD_eq_getElem?_getD, List.getD_eq_getElem?_getD,
    List.getElem?_append_left hj]

theorem get_mem_of_cstr_append (p : Ptr) (a t : List Nat) (h : p.cstr = a ++ t) (j : Nat)
    (hj : j < a.length) : p.get j ∈ a := by
  rw [get_of_cstr_append p a t h j hj, List.getD_eq_getElem?_getD, List.getElem?_eq_getElem hj]
  exact List.getElem_mem hj

theorem get_at_cstr_append (p : Ptr) (a t : List Nat) (c : Nat) (h : p.cstr = a ++ c :: t) :
    p.get a.length = c := by
  rw [get_eq_cstr, h, List.getD_eq_getElem?_getD, List.getElem?_append_right (le_refl _)]
  simp

/-! ## The scanning loop of `sv_chop_char` -/

theorem sv_chop_char_loop_spec (data : Ptr) (lim : Nat) :
    ∀ (left i k : Nat), k ≤ left → (∀ j, j < k → data.get (i + j) ≠ lim) →
      (k < left → data.get (i + k) = lim) → sv_chop_char_loop data lim left i = i + k := by
  intro left
  induction left with
  | zero =>
    intro i k hk _ _
    have : k = 0 := by omega
    subst this
    rfl
  | succ left ih =>
    intro i k hk hne heq
    cases k with
    | zero =>
      have h0 : data.get i = lim := by simpa using heq (by omega)
      simp [sv_chop_char_loop, h0]
    | succ k =>
      have h0 : data.get i ≠ lim := by simpa using hne 0 (by omega)
      have hrec := ih (i + 1) k (by omega)
        (fun j hj => by
          have := hne (j + 1) (by omega)
          rwa [show i + (j + 1) = i + 1 + j by omega] at this)
        (fun hlt => by
          have := heq (by omega)
          rwa [show i + (k + 1) = i + 1 + k by omega] at this)
      simp only [sv_chop_char_loop, h0, ne_eq, not_false_eq_true, if_true, hrec]
      omega

theorem sv_chop_char_loop_found (p : Ptr) (lim n : Nat) (a t : List Nat)
    (h : p.cstr = a ++ lim :: t) (ha : lim ∉ a) (hn : a.length < n) :
    sv_chop_char_loop p lim n 0 = a.length := by
  have := sv_chop_char_loop_spec p lim n 0 a.length (by omega)
    (fun j hj => by
      rw [Nat.zero_add]
      intro he
      exact ha (he ▸ get_mem_of_cstr_append p a _ h j hj))
    (fun _ => by rw [Nat.zero_add]; exact get_at_cstr_append p a t lim h)
  simpa using this

theorem sv_chop_char_loop_absent (p : Ptr) (lim n : Nat) (a t : List Nat)
    (h : p.cstr = a ++ t) (ha : lim ∉ a) (hn : a.length = n) :
    sv_chop_char_loop p lim n 0 = n := by
  have := sv_chop_char_loop_spec p lim n 0 n (le_refl _)
    (fun j hj => by
      rw [Nat.zero_add]
      intro he
      exact ha (he ▸ get_mem_of_cstr_append p a _ h j (by omega)))
    (fun hlt => absurd hlt (lt_irrefl _))
  simpa using this

/-- The delimiter is found: `sv_chop_char` returns the bytes before it and moves
the receiver past it. -/
theorem sv_chop_char_found (sv : string_view) (lim : Nat) (a t : List Nat)
    (h : sv.data.cstr = a ++ lim :: t) (ha : lim ∉ a) (hn : a.length < sv.size) :
    sv_chop_char sv lim =
      (⟨sv.data, a.length⟩, ⟨sv.data.add (a.length + 1), sv.size - (a.length + 1)⟩) := by
  unfold sv_chop_char
  simp only [sv_chop_char_loop_found sv.data lim sv.size a t h ha hn, hn, if_true, sv_create]

/-- The delimiter is not in the view: `sv_chop_char` returns the whole view and
leaves the receiver empty, at the end of the view. -/
theorem sv_chop_char_absent (sv : string_view) (lim : Nat) (a t : List Nat)
    (h : sv.data.cstr = a ++ t) (ha : lim ∉ a) (hn : a.length = sv.size) :
    sv_chop_char sv lim = (⟨sv.data, sv.size⟩, ⟨sv.data.add sv.size, 0⟩) := by
  unfold sv_chop_char
  simp only [sv_chop_char_loop_absent sv.data lim sv.size a t h ha hn, lt_irrefl, if_false,
    sv_create, Nat.sub_self]

theorem sv_chop_char_loop_le (data : Ptr) (lim : Nat) :
    ∀ (left i : Nat), i ≤ sv_chop_char_loop data lim left i ∧
      sv_chop_char_loop data lim left i ≤ i + left := by
  intro left
  induction left with
  | zero => intro i; simp [sv_chop_char_loop]
  | succ left ih =>
    intro i
    unfold sv_chop_char_loop
    split
    · have := ih (i + 1)
      omega
    · omega

theorem exists_first_split (d : Nat) :
    ∀ l : List Nat, d ∈ l → ∃ a b, l = a ++ d :: b ∧ d ∉ a := by
  intro l
  induction l with
  | nil => intro h; cases h
  | cons x l ih =>
    intro h
    by_cases hx : x = d
    · exact ⟨[], l, by simp [hx], by simp⟩
    · have hl : d ∈ l := by
        rcases List.mem_cons.mp h with h1 | h1
        · exact absurd h1.symm hx
        · exact h1
      obtain ⟨a, b, hab, hna⟩ := ih hl
      refine ⟨x :: a, b, by simp [hab], ?_⟩
      intro hm
      rcases List.mem_cons.mp hm with h1 | h1
      · exact hx h1.symm
      · exact hna h1

/-- The bytes of a sub-view that starts `a.length` bytes into a C string
`a ++ b ++ t` and has `b.length` bytes. -/
theorem bytes_of_cstr (p : Ptr) (a b t : List Nat) (h : p.cstr = a ++ (b ++ t)) :
    string_view.bytes ⟨p.add a.length, b.length⟩ = b := by
  rw [bytes_eq_cstr]
  simp only [cstr_add, h, List.drop_left, List.take_left]

theorem bytes_of_cstr_zero (p : Ptr) (b t : List Nat) (h : p.cstr = b ++ t) :
    string_view.bytes ⟨p, b.length⟩ = b := by
  rw [bytes_eq_cstr]
  simp only [h, List.take_left]

/-! ## sv_chop and sv_chop_right inside the view -/

/-- C3: for a view inside its buffer and a delimiter `d`: if `d` occurs in the
view, `sv_chop_char` returns the bytes before the first `d` (the result has no
`d`) and leaves the bytes after it, so result, `d`, receiver make up the
original; if `d` does not occur, it returns the whole view and leaves the
receiver empty. -/
theorem sv_chop_char_spec (sv : string_view) (d : Nat) (h : sv.InBuf) :
    (d ∈ sv.bytes →
      d ∉ (sv_chop_char sv d).1.bytes ∧
      (sv_chop_char sv d).1.bytes ++ d :: (sv_chop_char sv d).2.bytes = sv.bytes ∧
      (sv_chop_char sv d).1.size + 1 + (sv_chop_char sv d).2.size = sv.size) ∧
    (d ∉ sv.bytes →
      (sv_chop_char sv d).1 = sv ∧
      (sv_chop_char sv d).2.bytes = [] ∧ (sv_chop_char sv d).2.size = 0) := by
  have hlen := bytes_length sv h
  constructor
  · intro hd
    obtain ⟨a, b, hab, hna⟩ := exists_first_split d sv.bytes hd
    have hsz : sv.size = a.length + 1 + b.length := by
      rw [← hlen, hab]; simp; omega
    obtain ⟨rest, hrest⟩ : ∃ rest, sv.data.cstr = sv.bytes ++ rest :=
      ⟨_, cstr_eq_bytes_append sv⟩
    have hc : sv.data.cstr = a ++ d :: (b ++ rest) := by
      rw [hrest, hab]; simp
    rw [sv_chop_char_found sv d a _ hc hna (by omega)]
    refine ⟨?_, ?_, ?_⟩
    · rw [bytes_of_cstr_zero sv.data a _ hc]; exact hna
    · have h2 : sv.size - (a.length + 1) = b.length := by omega
      have hc2 : sv.data.cstr = (a ++ [d]) ++ (b ++ rest) := by
        rw [hc]; simp
      have hb := bytes_of_cstr sv.data (a ++ [d]) b _ hc2
      simp only [List.length_append, List.length_singleton] at hb
      rw [bytes_of_cstr_zero sv.data a _ hc, h2, hb, hab]
    · show a.length + 1 + (sv.size - (a.length + 1)) = sv.size
      omega
  · intro hd
    rw [sv_chop_char_absent sv d sv.bytes _ (cstr_eq_bytes_append sv) hd hlen]
    refine ⟨rfl, ?_, rfl⟩
    simp [string_view.bytes]

/-- C3, at a concrete input: chopping `GET /x` at the space. -/
theorem sv_chop_char_spec_witness :
    (sv_chop_char (view (ascii "GET /x")) 32).1.bytes ++
      32 :: (sv_chop_char (view (ascii "GET /x")) 32).2.bytes = (view (ascii "GET /x")).bytes :=
  ((sv_chop_char_spec (view (ascii "GET /x")) 32 (by decide)).1 (by decide)).2.1

/-! ## sv_equals and sv_has_prefix -/

theorem sv_equals_loop_iff (a b : Ptr) :
    ∀ (left i : Nat), sv_equals_loop a b left i = true ↔
      ∀ j, j < left → fold_case (a.get (i + j)) = fold_case (b.get (i + j)) := by
  intro left
  induction left with
  | zero => intro i; simp [sv_equals_loop]
  | succ left ih =>
    intro i
    unfold sv_equals_loop
    by_cases hx : fold_case (a.get i) = fold_case (b.get i)
    · simp only [hx, ne_eq, not_true_eq_false, if_false, ih (i + 1)]
      constructor
      · intro hall j hj
        cases j with
        | zero => simpa using hx
        | succ j =>
          have := hall j (by omega)
          rwa [show i + 1 + j = i + (j + 1) by omega] at this
      · intro hall j hj
        have := hall (j + 1) (by omega)
        rwa [show i + (j + 1) = i + 1 + j by omega] at this
    · simp only [hx, ne_eq, not_false_eq_true, if_true, Bool.false_eq_true, false_iff]
      intro hall
      exact hx (by simpa using hall 0 (by omega))

theorem memcmp_eq_zero_iff (a b : Ptr) :
    ∀ (left i : Nat), memcmp a b left i = 0 ↔
      ∀ j, j < left → a.get (i + j) = b.get (i + j) := by
  intro left
  induction left with
  | zero => intro i; simp [memcmp]
  | succ left ih =>
    intro i
    unfold memcmp
    by_cases hx : a.get i = b.get i
    · simp only [hx, if_true, ih (i + 1)]
      constructor
      · intro hall j hj
        cases j with
        | zero => simpa using hx
        | succ j =>
          have := hall j (by omega)
          rwa [show i + 1 + j = i + (j + 1) by omega] at this
      · intro hall j hj
        have := hall (j + 1) (by omega)
        rwa [show i + (j + 1) = i + 1 + j by omega] at this
    · simp only [hx, if_false]
      constructor
      · intro h0
        exfalso
        split at h0 <;> omega
      · intro hall
        exact absurd (by simpa using hall 0 (by omega)) hx

theorem fold_case_eq_ascii_lower (c : Nat) : fold_case c = ascii_lower c := by
  unfold fold_case ascii_lower
  by_cases h : 65 ≤ c ∧ c ≤ 90
  · obtain ⟨h1, h2⟩ := h
    interval_cases c <;> rfl
  · have hmem : c ∉ ascii "ABCDEFGHIJKLMNOPQRSTUVWXYZ" := by
      intro hc
      have hall : ∀ x ∈ ascii "ABCDEFGHIJKLMNOPQRSTUVWXYZ", 65 ≤ x ∧ x ≤ 90 := by decide
      exact h (hall c hc)
    rw [if_neg h, List.indexOf_eq_length.mpr hmem]
    rfl

theorem fold_case_of_case_variant (x y : Nat) (h : case_variant x y) :
    fold_case x = fold_case y := by
  unfold fold_case
  rcases h with h | ⟨h1, h2, h3⟩ | ⟨h1, h2, h3⟩
  · rw [h]
  · subst h3
    rw [if_pos ⟨h1, h2⟩, if_neg (by omega)]
  · subst h3
    rw [if_neg (by omega), if_pos (by omega)]

/-- Equality of the mapped bytes of two views of the same size, index by
index. -/
theorem bytes_map_eq_iff (f : Nat → Nat) (a b : string_view) (ha : a.InBuf) (hb : b.InBuf)
    (hs : a.size = b.size) :
    a.bytes.map f = b.bytes.map f ↔ ∀ j, j < a.size → f (a.data.get j) = f (b.data.get j) := by
  constructor
  · intro h j hj
    have h1 : (a.bytes.map f)[j]? = some (f (a.data.get j)) := by
      rw [List.getElem?_map, bytes_getElem? a ha j hj]; rfl
    have h2 : (b.bytes.map f)[j]? = some (f (b.data.get j)) := by
      rw [List.getElem?_map, bytes_getElem? b hb j (by omega)]; rfl
    rw [h] at h1
    exact Option.some.inj (h1.symm.trans h2)
  · intro h
    apply List.ext_getElem?
    intro j
    by_cases hj : j < a.size
    · rw [List.getElem?_map, List.getElem?_map, bytes_getElem? a ha j hj,
        bytes_getElem? b hb j (by omega)]
      simp [h j hj]
    · have h1 : (a.bytes.map f).length ≤ j := by
        rw [List.length_map, bytes_length a ha]; omega
      have h2 : (b.bytes.map f).length ≤ j := by
        rw [List.length_map, bytes_length b hb]; omega
      rw [List.getElem?_eq_none h1, List.getElem?_eq_none h2]

theorem sv_equals_ignorecase_iff (a b : string_view) (ha : a.InBuf) (hb : b.InBuf) :
    sv_equals a b true = true ↔
      a.size = b.size ∧ a.bytes.map ascii_lower = b.bytes.map ascii_lower := by
  unfold sv_equals
  by_cases hs : a.size = b.size
  · simp only [hs, ne_eq, not_true_eq_false, if_false, Bool.not_true, Bool.false_eq_true,
      true_and]
    rw [← hs, sv_equals_loop_iff, bytes_map_eq_iff ascii_lower a b ha hb hs]
    simp only [Nat.zero_add, fold_case_eq_ascii_lower]
  · simp [hs]

theorem sv_equals_exact_iff (a b : string_view) (ha : a.InBuf) (hb : b.InBuf) :
    sv_equals a b false = true ↔ a.size = b.size ∧ a.bytes = b.bytes := by
  unfold sv_equals
  by_cases hs : a.size = b.size
  · simp only [hs, ne_eq, not_true_eq_false, if_false, Bool.not_false, if_true, true_and,
      beq_iff_eq]
    rw [← hs, memcmp_eq_zero_iff]
    have := bytes_map_eq_iff id a b ha hb hs
    simp only [List.map_id, id] at this
    rw [this]
    simp only [Nat.zero_add]
  · simp [hs]

/-- C5: for views inside their buffers, `sv_equals(a, b, true)` holds exactly
when the sizes agree and the bytes agree index by index after mapping only the
letters `A`..`Z` to `a`..`z` (so the bytes 91 and 123, the square and the curly
opening bracket, or 64 and 96, the at sign and the backquote, which differ by
32, do not compare equal); `sv_equals(a, b, false)` holds exactly when the
sizes agree and the bytes are identical. -/
theorem sv_equals_spec (a b : string_view) (ha : a.InBuf) (hb : b.InBuf) :
    (sv_equals a b true = true ↔
      a.size = b.size ∧ a.bytes.map ascii_lower = b.bytes.map ascii_lower) ∧
    (sv_equals a b false = true ↔ a.size = b.size ∧ a.bytes = b.bytes) ∧
    sv_equals (view [91]) (view [123]) true = false ∧
    sv_equals (view [64]) (view [96]) true = false :=
  ⟨sv_equals_ignorecase_iff a b ha hb, sv_equals_exact_iff a b ha hb, by decide, by decide⟩

/-- C5, at a concrete input: `Hello` and `hELLO` compare equal ignoring case. -/
theorem sv_equals_spec_witness :
    sv_equals (view (ascii "Hello")) (view (ascii "hELLO")) true = true ↔
      (view (ascii "Hello")).size = (view (ascii "hELLO")).size ∧
      (view (ascii "Hello")).bytes.map ascii_lower =
        (view (ascii "hELLO")).bytes.map ascii_lower :=
  (sv_equals_spec (view (ascii "Hello")) (view (ascii "hELLO")) (by decide) (by decide)).1

/-- C4: for views inside their buffers, if the bytes of `p` are obtained from a
prefix `q` of the bytes of `sv` by changing the case of ASCII letters, then
`sv_has_prefix(sv, p, true)` is true. -/
theorem sv_has_prefix_case_variant (sv p : string_view) (q : List Nat) (hsv : sv.InBuf)
    (hp : p.InBuf) (hq : q <+: sv.bytes) (hvar : List.Forall₂ case_variant q p.bytes) :
    sv_has_prefix sv p true = true := by
  obtain ⟨r, hr⟩ := hq
  have hlen : q.length = p.size := by rw [hvar.length_eq, bytes_length p hp]
  have hle : p.size ≤ sv.size := by
    rw [← bytes_length sv hsv, ← hr, List.length_append]; omega
  unfold sv_has_prefix sv_equals
  simp only [show ¬ sv.size < p.size by omega, if_false, sv_create, ne_eq, not_true_eq_false,
    Bool.not_true, Bool.false_eq_true]
  rw [sv_equals_loop_iff]
  intro j hj
  rw [Nat.zero_add]
  apply fold_case_of_case_variant
  have hjq : j < q.length := by omega
  have hjp : j < p.bytes.length := by rw [bytes_length p hp]; exact hj
  have hv := hvar.get hjq hjp
  have h1 : sv.bytes[j]? = some (sv.data.get j) := bytes_getElem? sv hsv j (by omega)
  have h2 : p.bytes[j]? = some (p.data.get j) := bytes_getElem? p hp j hj
  rw [← hr, List.getElem?_append_left hjq, List.getElem?_eq_getElem hjq] at h1
  rw [List.getElem?_eq_getElem hjp] at h2
  simp only [List.get_eq_getElem] at hv
  rw [Option.some.inj h1, Option.some.inj h2] at hv
  exact hv

/-- C4, at a concrete input: `/ECHO/` is a case variant of the prefix `/echo/`
of `/echo/abc`. -/
theorem sv_has_prefix_case_variant_witness :
    sv_has_prefix (view (ascii "/echo/abc")) (view (ascii "/ECHO/")) true = true :=
  sv_has_prefix_case_variant (view (ascii "/echo/abc")) (view (ascii "/ECHO/"))
    (ascii "/echo/") (by decide) (by decide) ⟨ascii "abc", by decide⟩
    (by
      have h : (view (ascii "/ECHO/")).bytes = ascii "/ECHO/" := by decide
      rw [h]
      simp [ascii, case_variant])

/-! ## sv_chop_prefix -/

/-- C6: if `sv_has_prefix(*sv, other, true)` holds, `sv_chop_prefix(sv, other)`
returns the same view and leaves the same receiver as `sv_chop(sv, other.size)`;
otherwise it returns a view of size 0 and leaves the receiver unchanged. -/
theorem sv_chop_prefix_spec (sv other : string_view) :
    ( sv_has_prefix sv other true = true →
      sv_chop_prefix sv other = sv_chop sv other.size) ∧
    ( sv_has_prefix sv other true = false →
      ( sv_chop_prefix sv other).1.size = 0 ∧ ( sv_chop_prefix sv other).2 = sv) := by
  unfold sv_chop_prefix
  constructor
  · intro h
    simp [h]
  · intro h
    simp [h, sv_create]

/-- C6, at concrete inputs: `/files/a` with the prefix `/files/`, and `/image`
without it. -/
theorem sv_chop_prefix_spec_witness :
    sv_chop_prefix (view (ascii "/files/a")) (SV_LITERAL (ascii "/files/")) =
      sv_chop (view (ascii "/files/a")) (SV_LITERAL (ascii "/files/")).size ∧
    ( sv_chop_prefix (view (ascii "/image")) (SV_LITERAL (ascii "/files/"))).2 =
      view (ascii "/image") :=
  ⟨( sv_chop_prefix_spec (view (ascii "/files/a")) (SV_LITERAL (ascii "/files/"))).1 (by decide),
   (( sv_chop_prefix_spec (view (ascii "/image")) (SV_LITERAL (ascii "/files/"))).2
      (by decide)).2⟩

/-! ## parse_request_line -/

theorem cstr_add_of_append (p : Ptr) (a t : List Nat) (h : p.cstr = a ++ t) :
    (p.add a.length).cstr = t := by
  rw [cstr_add, h, List.drop_left]

theorem ptr_add_add (p : Ptr) (m n : Nat) : (p.add m).add n = p.add (m + n) := by
  simp [Ptr.add, Nat.add_assoc]

/-- C7: for a request view inside its buffer whose bytes are `M`, one space,
`P`, one space, `V`, `\r\n` and then `rest`, where `M` and `P` have no space and
no `\n`, and `V` has no `\r` and no `\n` (the claim also takes `M` not empty,
which the proof does not need):
`parse_request_line` returns with method `M`, path `P`, protocol `V` (without
the `\r`) and leaves the request view at the first byte after the `\n`, viewing
`rest`. -/
theorem parse_request_line_spec (request : string_view) (M P V rest : List Nat)
    (hin : request.InBuf)
    (hb : request.bytes = M ++ 32 :: (P ++ 32 :: (V ++ 13 :: 10 :: rest)))
    (hM32 : 32 ∉ M) (hM10 : 10 ∉ M) (hP32 : 32 ∉ P) (hP10 : 10 ∉ P)
    (hV13 : 13 ∉ V) (hV10 : 10 ∉ V) :
    ∃ rl, parse_request_line request = some rl ∧
      rl.method.bytes = M ∧ rl.path.bytes = P ∧ rl.protocol.bytes = V ∧
      rl.request.bytes = rest ∧
      rl.request = ⟨request.data.add (M.length + 1 + P.length + 1 + V.length + 2),
        rest.length⟩ := by
  obtain ⟨tl, htl⟩ : ∃ tl, request.data.cstr = request.bytes ++ tl :=
    ⟨_, cstr_eq_bytes_append request⟩
  have hsz : request.size = M.length + 1 + P.length + 1 + V.length + 2 + rest.length := by
    rw [← bytes_length request hin, hb]
    simp only [List.length_append, List.length_cons]
    omega
  -- the request line and what follows it
  have hc0 : request.data.cstr =
      (M ++ 32 :: (P ++ 32 :: (V ++ [13]))) ++ 10 :: (rest ++ tl) := by
    rw [htl, hb]; simp
  have hn0 : 10 ∉ M ++ 32 :: (P ++ 32 :: (V ++ [13])) := by
    simp only [List.mem_append, List.mem_cons, List.mem_singleton, not_or]
    refine ⟨hM10, by omega, hP10, by omega, hV10, by omega, ?_⟩
    simp
  have hl0 : (M ++ 32 :: (P ++ 32 :: (V ++ [13]))).length =
      M.length + 1 + P.length + 1 + V.length + 1 := by
    simp only [List.length_append, List.length_cons, List.length_nil]
    omega
  have h0 := sv_chop_char_found request 10 _ _ hc0 hn0 (by rw [hl0]; omega)
  rw [hl0] at h0
  -- the method
  have hc1 : request.data.cstr = M ++ 32 :: (P ++ 32 :: (V ++ 13 :: 10 :: (rest ++ tl))) := by
    rw [htl, hb]; simp
  have h1 := sv_chop_char_found ⟨request.data, M.length + 1 + P.length + 1 + V.length + 1⟩ 32
    M _ hc1 hM32 (by dsimp only; omega)
  -- the path
  have hc2 : (request.data.add (M.length + 1)).cstr =
      P ++ 32 :: (V ++ 13 :: 10 :: (rest ++ tl)) := by
    have : request.data.cstr = (M ++ [32]) ++ (P ++ 32 :: (V ++ 13 :: 10 :: (rest ++ tl))) := by
      rw [hc1]; simp
    have h := cstr_add_of_append _ _ _ this
    simpa using h
  have h2 := sv_chop_char_found
    ⟨request.data.add (M.length + 1), M.length + 1 + P.length + 1 + V.length + 1 - (M.length + 1)⟩
    32 P _ hc2 hP32 (by dsimp only; omega)
  -- the protocol
  have hc3 : ((request.data.add (M.length + 1)).add (P.length + 1)).cstr =
      V ++ 13 :: 10 :: (rest ++ tl) := by
    have : (request.data.add (M.length + 1)).cstr =
        (P ++ [32]) ++ (V ++ 13 :: 10 :: (rest ++ tl)) := by
      rw [hc2]; simp
    have h := cstr_add_of_append _ _ _ this
    simpa using h
  have h3 := sv_chop_char_found
    ⟨(request.data.add (M.length + 1)).add (P.length + 1),
      M.length + 1 + P.length + 1 + V.length + 1 - (M.length + 1) - (P.length + 1)⟩
    13 V _ hc3 hV13 (by dsimp only; omega)
  have hne : M.length + 1 + P.length + 1 + V.length + 1 ≠ 0 := by omega
  dsimp only at h1 h2 h3
  have hres : parse_request_line request = some
      ⟨⟨request.data.add (M.length + 1 + P.length + 1 + V.length + 1 + 1),
          request.size - (M.length + 1 + P.length + 1 + V.length + 1 + 1)⟩,
        ⟨request.data, M.length⟩, ⟨request.data.add (M.length + 1), P.length⟩,
        ⟨(request.data.add (M.length + 1)).add (P.length + 1), V.length⟩⟩ := by
    unfold parse_request_line
    simp only [h0, hne, if_false, h1, h2, h3]
  refine ⟨_, hres, ?_, ?_, ?_, ?_, ?_⟩
  · exact bytes_of_cstr_zero _ _ _ hc1
  · exact bytes_of_cstr_zero _ _ _ hc2
  · exact bytes_of_cstr_zero _ _ _ hc3
  · have hc4 : request.data.cstr =
        (M ++ 32 :: (P ++ 32 :: (V ++ [13, 10]))) ++ (rest ++ tl) := by
      rw [hc1]; simp
    have h := bytes_of_cstr request.data _ rest tl hc4
    have hl : (M ++ 32 :: (P ++ 32 :: (V ++ [13, 10]))).length =
        M.length + 1 + P.length + 1 + V.length + 1 + 1 := by
      simp only [List.length_append, List.length_cons, List.length_nil]
      omega
    rw [hl] at h
    have hr : request.size - (M.length + 1 + P.length + 1 + V.length + 1 + 1) = rest.length := by
      omega
    show string_view.bytes ⟨_, request.size - (M.length + 1 + P.length + 1 + V.length + 1 + 1)⟩ = _
    rw [hr]
    exact h
  · show string_view.mk _ (request.size - (M.length + 1 + P.length + 1 + V.length + 1 + 1)) = _
    congr 1
    omega

/-- C7, at a concrete input: the request line `GET /index.html HTTP/1.1`. -/
theorem parse_request_line_spec_witness :
    ∃ rl, parse_request_line (view (ascii "GET /index.html HTTP/1.1\r\nHost: x\r\n\r\n")) =
        some rl ∧
      rl.method.bytes = ascii "GET" ∧ rl.path.bytes = ascii "/index.html" ∧
      rl.protocol.bytes = ascii "HTTP/1.1" ∧ rl.request.bytes = ascii "Host: x\r\n\r\n" ∧
      rl.request =
        ⟨(view (ascii "GET /index.html HTTP/1.1\r\nHost: x\r\n\r\n")).data.add
          ((ascii "GET").length + 1 + (ascii "/index.html").length + 1 +
            (ascii "HTTP/1.1").length + 2), (ascii "Host: x\r\n\r\n").length⟩ :=
  parse_request_line_spec (view (ascii "GET /index.html HTTP/1.1\r\nHost: x\r\n\r\n"))
    (ascii "GET") (ascii "/index.html") (ascii "HTTP/1.1") (ascii "Host: x\r\n\r\n")
    (by decide) (by decide) (by decide) (by decide) (by decide) (by decide) (by decide)
    (by decide)

/-! ## parse_headers returns; when parse_http_request exits -/

theorem sv_chop_char_size_lt (sv : string_view) (d : Nat) (h : 0 < sv.size) :
    (sv_chop_char sv d).2.size < sv.size := by
  have hb := sv_chop_char_loop_le sv.data d sv.size 0
  unfold sv_chop_char
  by_cases hlt : sv_chop_char_loop sv.data d sv.size 0 < sv.size
  · simp only [hlt, if_true]
    omega
  · simp only [hlt, if_false]
    omega

theorem parse_headers_loop_returns :
    ∀ (fuel : Nat) (st : headers_state), st.request.size < fuel →
      ∃ st', parse_headers_loop fuel st = some st' := by
  intro fuel
  induction fuel with
  | zero => intro st h; omega
  | succ fuel ih =>
    intro st h
    unfold parse_headers_loop
    by_cases hs : st.request.size > 0
    · have hlt := sv_chop_char_size_lt st.request 10 hs
      simp only [hs, if_true]
      split
      · exact ⟨_, rfl⟩
      · split
        · exact ih _ (by dsimp only; omega)
        · split
          · exact ih _ (by dsimp only; omega)
          · exact ih _ (by dsimp only; omega)
    · simp only [hs, if_false]
      exact ⟨_, rfl⟩

/-- The loop of `parse_headers` ends: `parse_headers` returns on every view. -/
theorem parse_headers_returns (request : string_view) :
    ∃ st, parse_headers request = some st :=
  parse_headers_loop_returns _ _ (Nat.lt_succ_self _)

theorem sv_chop_char_loop_eq_zero_iff (data : Ptr) (lim n : Nat) :
    sv_chop_char_loop data lim n 0 = 0 ↔ n = 0 ∨ data.get 0 = lim := by
  cases n with
  | zero => simp [sv_chop_char_loop]
  | succ n =>
    unfold sv_chop_char_loop
    by_cases h : data.get 0 = lim
    · simp [h]
    · have := (sv_chop_char_loop_le data lim n 1).1
      simp only [h, ne_eq, not_false_eq_true, if_true, Nat.zero_add, Nat.add_one_ne_zero,
        or_self, iff_false]
      omega

theorem sv_chop_char_fst_size (sv : string_view) (d : Nat) :
    (sv_chop_char sv d).1.size = sv_chop_char_loop sv.data d sv.size 0 := by
  unfold sv_chop_char
  dsimp only
  split <;> rfl

theorem parse_request_line_eq_none_iff (request : string_view) (hin : request.InBuf) :
    parse_request_line request = none ↔ request.bytes.takeWhile (· ≠ 10) = [] := by
  have h1 : parse_request_line request = none ↔ (sv_chop_char request 10).1.size = 0 := by
    unfold parse_request_line
    by_cases h : (sv_chop_char request 10).1.size = 0
    · simp [h]
    · simp [h]
  rw [h1, sv_chop_char_fst_size, sv_chop_char_loop_eq_zero_iff]
  have hlen := bytes_length request hin
  cases hb : request.bytes with
  | nil =>
    rw [hb] at hlen
    simp only [List.length_nil] at hlen
    simp [← hlen]
  | cons c t =>
    rw [hb] at hlen
    simp only [List.length_cons] at hlen
    have hg := bytes_getElem? request hin 0 (by omega)
    rw [hb] at hg
    simp only [List.getElem?_cons_zero, Option.some.injEq] at hg
    rw [← hg]
    by_cases hc : c = 10
    · simp [hc]
    · simp only [hc, or_false, List.takeWhile_cons, ne_eq, not_false_eq_true, decide_True,
        if_true]
      constructor
      · intro h; omega
      · intro h; cases h

/-- C8 (the claim fails): on `GET\r\n\r\n` the request line has no path, and on
` / HTTP/1.1\r\n\r\n` it has no method; in both cases `parse_http_request`
returns (with the method `GET\r` and an empty path, and with an empty method and
the path `/`) instead of ending the process. -/
theorem empty_method_or_path_is_not_fatal :
    (parse_http_request (recv_buffer (ascii "GET\r\n\r\n") []) 7).returned.map
      (fun r => (r.method.bytes, r.path.bytes)) = some (ascii "GET\r", []) ∧
    (parse_http_request (recv_buffer (ascii " / HTTP/1.1\r\n\r\n") []) 15).returned.map
      (fun r => (r.method.bytes, r.path.bytes)) = some ([], ascii "/") := by
  decide

/-- C8 (amended): for a receive buffer of `raw_request_len` bytes,
`parse_http_request` ends in `exit(EXIT_FAILURE)` exactly when the request line,
the bytes before the first `\n`, is empty; in every other case it returns a
parsed request (also when the method or the path it yields is empty). -/
theorem parse_http_request_exit_iff (raw_request : Ptr) (raw_request_len : Nat)
    (hin : (sv_create raw_request raw_request_len).InBuf) :
    (parse_http_request raw_request raw_request_len = Outcome.exit_failure ↔
      (sv_create raw_request raw_request_len).bytes.takeWhile (· ≠ 10) = []) ∧
    ((sv_create raw_request raw_request_len).bytes.takeWhile (· ≠ 10) ≠ [] →
      ∃ r, parse_http_request raw_request raw_request_len = Outcome.ret r) := by
  have hiff := parse_request_line_eq_none_iff _ hin
  cases hrl : parse_request_line (sv_create raw_request raw_request_len) with
  | none =>
    have hnil := hiff.mp hrl
    have hx : parse_http_request raw_request raw_request_len = Outcome.exit_failure := by
      unfold parse_http_request
      simp only [hrl]
    exact ⟨⟨fun _ => hnil, fun _ => hx⟩, fun h => absurd hnil h⟩
  | some rl =>
    have hne : ¬ (sv_create raw_request raw_request_len).bytes.takeWhile (· ≠ 10) = [] := by
      intro h
      have := hiff.mpr h
      rw [hrl] at this
      cases this
    obtain ⟨st, hst⟩ := parse_headers_returns rl.request
    have hx : ∃ r, parse_http_request raw_request raw_request_len = Outcome.ret r := by
      unfold parse_http_request
      simp only [hrl, hst]
      exact ⟨_, rfl⟩
    refine ⟨⟨fun h => ?_, fun h => absurd h hne⟩, fun _ => hx⟩
    obtain ⟨r, hr⟩ := hx
    rw [hr] at h
    cases h

/-- C8 (amended), at a concrete input: a buffer that starts with `\n` ends the
process. -/
theorem parse_http_request_exit_iff_witness :
    parse_http_request (recv_buffer (ascii "\nGET / HTTP/1.1\r\n\r\n") []) 19 =
      Outcome.exit_failure :=
  (parse_http_request_exit_iff (recv_buffer (ascii "\nGET / HTTP/1.1\r\n\r\n") []) 19
    (by decide)).1.mpr (by decide)

/-! ## One iteration of the loop of parse_headers -/

theorem takeWhile_ne_append (d : Nat) (a b : List Nat) (h : d ∉ a) :
    (a ++ d :: b).takeWhile (· ≠ d) = a ∧ (a ++ d :: b).dropWhile (· ≠ d) = d :: b := by
  induction a with
  | nil => simp
  | cons x a ih =>
    have hx : x ≠ d := fun e => h (by simp [e])
    have ha : d ∉ a := fun e => h (List.mem_cons_of_mem _ e)
    simpa [List.takeWhile_cons, List.dropWhile_cons, hx] using ih ha

theorem takeWhile_ne_of_not_mem (d : Nat) (a : List Nat) (h : d ∉ a) :
    a.takeWhile (· ≠ d) = a ∧ a.dropWhile (· ≠ d) = [] := by
  induction a with
  | nil => simp
  | cons x a ih =>
    have hx : x ≠ d := fun e => h (by simp [e])
    have ha : d ∉ a := fun e => h (List.mem_cons_of_mem _ e)
    simpa [List.takeWhile_cons, List.dropWhile_cons, hx] using ih ha

theorem strip_cr_append (l : List Nat) :
    ∃ cr, l = strip_cr l ++ cr ∧ (cr = [] ∨ cr = [13]) := by
  unfold strip_cr
  rcases List.eq_nil_or_concat l with h | ⟨L, b, h⟩
  · subst h
    exact ⟨[], by simp⟩
  · rw [List.concat_eq_append] at h
    subst h
    by_cases hb : b = 13
    · subst hb
      exact ⟨[13], by simp⟩
    · exact ⟨[], by simp [hb]⟩

theorem header_strip_cr_eq (D : Ptr) (l t : List Nat) (hc : D.cstr = l ++ t) :
    header_strip_cr ⟨D, l.length⟩ = ⟨D, (strip_cr l).length⟩ := by
  unfold header_strip_cr strip_cr
  rcases List.eq_nil_or_concat l with h | ⟨L, b, h⟩
  · subst h
    simp
  · rw [List.concat_eq_append] at h
    subst h
    have hg : D.get L.length = b := by
      apply get_at_cstr_append D L t b
      rw [hc]; simp
    by_cases hb : b = 13
    · subst hb
      simp [hg]
    · simp [hg, hb]

theorem header_split_eq (D : Ptr) (l t : List Nat) (hc : D.cstr = l ++ t) :
    header_split ⟨D, l.length⟩ =
      (⟨D, (header_key l).length⟩,
        ⟨D.add (l.length - (header_value l).length), (header_value l).length⟩) ∧
    (D.add (l.length - (header_value l).length)).cstr = header_value l ++ t ∧
    string_view.bytes ⟨D, (header_key l).length⟩ = header_key l := by
  by_cases h58 : 58 ∈ l
  · obtain ⟨key, ac, hl, hk⟩ := exists_first_split 58 l h58
    have htw := takeWhile_ne_append 58 key ac hk
    have hkey : header_key l = key := by rw [header_key, hl]; exact htw.1
    have hc1 : D.cstr = key ++ 58 :: (ac ++ t) := by rw [hc, hl]; simp
    have hlen : l.length = key.length + 1 + ac.length := by
      rw [hl]; simp; omega
    have hch := sv_chop_char_found ⟨D, l.length⟩ 58 key _ hc1 hk (by dsimp only; omega)
    dsimp only at hch
    have hc2 : (D.add (key.length + 1)).cstr = ac ++ t := by
      have : D.cstr = (key ++ [58]) ++ (ac ++ t) := by rw [hc1]; simp
      simpa using cstr_add_of_append _ _ _ this
    have hkb : string_view.bytes ⟨D, key.length⟩ = key := bytes_of_cstr_zero _ _ _ hc1
    cases ac with
    | nil =>
      have hv : header_value l = [] := by
        rw [header_value, hl, htw.2]; rfl
      rw [hkey, hv]
      refine ⟨?_, ?_, hkb⟩
      · unfold header_split
        simp only [hch]
        simp only [List.length_nil, Nat.add_zero] at hlen
        simp [hlen]
      · simp only [List.length_nil, Nat.sub_zero, List.nil_append]
        rw [hlen]
        simpa using hc2
    | cons c v =>
      have hg : (D.add (key.length + 1)).get 0 = c := by
        have := get_at_cstr_append (D.add (key.length + 1)) [] (v ++ t) c (by rw [hc2]; simp)
        simpa using this
      by_cases hc32 : c = 32
      · subst hc32
        have hv : header_value l = v := by
          rw [header_value, hl, htw.2]; rfl
        rw [hkey, hv]
        simp only [List.length_cons] at hlen
        have hoff : l.length - v.length = key.length + 1 + 1 := by omega
        refine ⟨?_, ?_, hkb⟩
        · unfold header_split
          simp only [hch, hg]
          have hpos : l.length - (key.length + 1) > 0 := by omega
          have hnlt : ¬ l.length - (key.length + 1) < 1 := by omega
          simp only [hpos, and_self, if_true, sv_chop, hnlt, if_false, ptr_add_add, hoff]
          congr 2
          omega
        · rw [hoff]
          have : (D.add (key.length + 1)).cstr = [32] ++ (v ++ t) := by rw [hc2]; simp
          have h := cstr_add_of_append _ _ _ this
          simpa [ptr_add_add] using h
      · have hv : header_value l = c :: v := by
          rw [header_value, hl, htw.2]
          simp only [List.drop_succ_cons, List.drop_zero]
          split
          · next heq => cases heq; exact absurd rfl hc32
          · rfl
        rw [hkey, hv]
        simp only [List.length_cons] at hlen
        have hoff : l.length - (c :: v).length = key.length + 1 := by
          simp only [List.length_cons]; omega
        refine ⟨?_, ?_, hkb⟩
        · unfold header_split
          simp only [hch, hg, hc32, and_false, if_false, hoff]
          congr 2
          simp only [List.length_cons]
          omega
        · rw [hoff]
          exact hc2
  · have htw := takeWhile_ne_of_not_mem 58 l h58
    have hkey : header_key l = l := by rw [header_key]; exact htw.1
    have hv : header_value l = [] := by
      rw [header_value, htw.2]; rfl
    have hch := sv_chop_char_absent ⟨D, l.length⟩ 58 l t hc h58 rfl
    dsimp only at hch
    rw [hkey, hv]
    refine ⟨?_, ?_, bytes_of_cstr_zero _ _ _ hc⟩
    · unfold header_split
      simp [hch]
    · simpa using cstr_add_of_append _ _ _ hc

theorem inBuf_of_cstr_append (D : Ptr) (a t : List Nat) (k : Nat) (h : D.cstr = a ++ t)
    (ha : a ≠ []) (hk : k ≤ a.length) : string_view.InBuf ⟨D, k⟩ := by
  have hpos : 0 < a.length := List.length_pos.mpr ha
  have hl : D.cstr.length = a.length + t.length := by rw [h, List.length_append]
  unfold Ptr.cstr at hl
  rw [List.length_drop] at hl
  unfold string_view.InBuf
  dsimp only
  omega

theorem SV_LITERAL_bytes (lit : List Nat) :
    (SV_LITERAL lit).bytes = lit ∧ (SV_LITERAL lit).InBuf ∧ (SV_LITERAL lit).size = lit.length := by
  refine ⟨?_, ?_, rfl⟩
  · simp [SV_LITERAL, string_view.bytes]
  · simp [SV_LITERAL, string_view.InBuf]

/-- Comparing a key with a literal name in `parse_headers`. -/
theorem sv_equals_literal (key : string_view) (hin : key.InBuf) (name : String) (l : List Nat)
    (hk : key.bytes = header_key l) :
    sv_equals key (SV_LITERAL (ascii name)) true = has_name name l := by
  obtain ⟨hb, hi, hs⟩ := SV_LITERAL_bytes (ascii name)
  rw [Bool.eq_iff_iff, sv_equals_ignorecase_iff key _ hin hi, hb, hs, hk]
  unfold has_name
  rw [decide_eq_true_iff]
  constructor
  · exact fun h => h.2
  · intro h
    refine ⟨?_, h⟩
    have := congrArg List.length h
    simp only [List.length_map] at this
    rw [← this, ← hk, bytes_length key hin]

/-- One iteration of the loop of `parse_headers`, on the line `l` that
`sv_chop_char` cut off the request: an empty line ends the loop, any other line
updates the variables as `after_header_line` says. -/
theorem parse_headers_loop_step (fuel : Nat) (st : headers_state) (l cr t : List Nat)
    (c2 : string_view) (hs : st.request.size > 0)
    (hc : st.request.data.cstr = l ++ t) (hcr : l = strip_cr l ++ cr)
    (hchop : sv_chop_char st.request 10 = (⟨st.request.data, l.length⟩, c2)) :
    parse_headers_loop (fuel + 1) st =
      if is_blank l then some ⟨c2, st.user_agent, st.content_length⟩
      else parse_headers_loop fuel
        (after_header_line st c2
          ⟨st.request.data.add ((strip_cr l).length - (header_value (strip_cr l)).length),
            (header_value (strip_cr l)).length⟩
          (strip_cr l) (header_value (strip_cr l) ++ (cr ++ t))) := by
  rw [parse_headers_loop]
  simp only [hs, if_true, hchop]
  rw [header_strip_cr_eq st.request.data l t hc]
  by_cases hb : strip_cr l = []
  · have h1 : is_blank l = true := by simp [is_blank, hb]
    simp [hb, h1]
  · have h1 : ¬ (is_blank l = true) := by simp [is_blank, hb]
    have h2 : (strip_cr l).length ≠ 0 := fun h => hb (List.length_eq_zero.mp h)
    have hc1 : st.request.data.cstr = strip_cr l ++ (cr ++ t) := by
      rw [hc]
      conv_lhs => rw [hcr]
      simp
    obtain ⟨hsplit, hvc, hkb⟩ := header_split_eq st.request.data (strip_cr l) (cr ++ t) hc1
    have hkin : string_view.InBuf ⟨st.request.data, (header_key (strip_cr l)).length⟩ :=
      inBuf_of_cstr_append _ _ _ _ hc1 hb (by
        unfold header_key
        exact (List.takeWhile_sublist _).length_le)
    simp only [h1, h2, if_false, hsplit, Bool.false_eq_true,
      sv_equals_literal _ hkin "User-Agent" (strip_cr l) hkb,
      sv_equals_literal _ hkin "Content-Length" (strip_cr l) hkb]
    unfold after_header_line
    by_cases hua : has_name "User-Agent" (strip_cr l) = true
    · simp only [hua, if_true]
    · by_cases hcl : has_name "Content-Length" (strip_cr l) = true
      · simp only [hua, hcl, if_true, if_false, strtoul, hvc, Bool.false_eq_true]
      · simp only [hua, hcl, if_false, Bool.false_eq_true]

/-- The parser on a complete request, evaluated. -/
theorem parse_http_request_example :
    (parse_http_request
      (recv_buffer
        (ascii "POST /files/a.txt HTTP/1.1\r\nHost: x\r\nContent-Length: 5\r\nUser-Agent: curl/8\r\n\r\nhello")
        []) 83).returned.map
      (fun r => (r.method.bytes, r.path.bytes, r.protocol.bytes)) =
      some (ascii "POST", ascii "/files/a.txt", ascii "HTTP/1.1") ∧
    (parse_http_request
      (recv_buffer
        (ascii "POST /files/a.txt HTTP/1.1\r\nHost: x\r\nContent-Length: 5\r\nUser-Agent: curl/8\r\n\r\nhello")
        []) 83).returned.map
      (fun r => (r.user_agent.bytes, r.content_length, r.body.bytes)) =
      some (ascii "curl/8", 5, ascii "hello") := by
  decide

/-! ## Lines of a text -/

theorem split_lines_ne_nil (t : List Nat) : split_lines t ≠ [] := by
  cases t with
  | nil => simp [split_lines]
  | cons c t =>
    unfold split_lines
    split
    · simp
    · split <;> simp

theorem split_lines_cons_of_ne (c : Nat) (t : List Nat) (hc : c ≠ 10) :
    ∃ l ls, split_lines t = l :: ls ∧ split_lines (c :: t) = (c :: l) :: ls := by
  cases h : split_lines t with
  | nil => exact absurd h (split_lines_ne_nil t)
  | cons l ls =>
    refine ⟨l, ls, rfl, ?_⟩
    rw [split_lines]
    simp only [hc, if_false, h]

theorem split_lines_append (l t : List Nat) (h : 10 ∉ l) :
    split_lines (l ++ 10 :: t) = l :: split_lines t := by
  induction l with
  | nil => simp [split_lines]
  | cons x l ih =>
    have hx : x ≠ 10 := fun e => h (by simp [e])
    have hl : 10 ∉ l := fun e => h (List.mem_cons_of_mem _ e)
    obtain ⟨l', ls, h1, h2⟩ := split_lines_cons_of_ne x (l ++ 10 :: t) hx
    rw [List.cons_append, h2]
    rw [ih hl] at h1
    cases h1
    rfl

theorem split_lines_of_not_mem (l : List Nat) (h : 10 ∉ l) : split_lines l = [l] := by
  induction l with
  | nil => rfl
  | cons x l ih =>
    have hx : x ≠ 10 := fun e => h (by simp [e])
    have hl : 10 ∉ l := fun e => h (List.mem_cons_of_mem _ e)
    obtain ⟨l', ls, h1, h2⟩ := split_lines_cons_of_ne x l hx
    rw [h2]
    rw [ih hl] at h1
    cases h1
    rfl

/-- Joining the lines of a text with `\n` gives the text back. -/
theorem intercalate_split_lines (t : List Nat) : [10].intercalate (split_lines t) = t := by
  induction t with
  | nil => rfl
  | cons c t ih =>
    by_cases hc : c = 10
    · subst hc
      have h : split_lines (10 :: t) = [] :: split_lines t := by simp [split_lines]
      rw [h]
      cases h2 : split_lines t with
      | nil => exact absurd h2 (split_lines_ne_nil t)
      | cons l ls =>
        rw [h2] at ih
        rw [← ih]
        simp [List.intercalate, List.intersperse]
    · obtain ⟨l, ls, h1, h2⟩ := split_lines_cons_of_ne c t hc
      rw [h2]
      rw [h1] at ih
      rw [← ih]
      cases ls <;> simp [List.intercalate, List.intersperse]

theorem after_blank_line_append (l t : List Nat) (h : 10 ∉ l) :
    after_blank_line (l ++ 10 :: t) = if is_blank l then t else after_blank_line t := by
  unfold after_blank_line
  rw [split_lines_append l t h]
  by_cases hb : is_blank l = true
  · simp [hb, List.dropWhile_cons, intercalate_split_lines]
  · simp [hb, List.dropWhile_cons]

theorem after_blank_line_of_not_mem (l : List Nat) (h : 10 ∉ l) : after_blank_line l = [] := by
  unfold after_blank_line
  rw [split_lines_of_not_mem l h]
  by_cases hb : is_blank l = true
  · simp [hb, List.dropWhile_cons, List.intercalate]
  · simp [hb, List.dropWhile_cons, List.intercalate]

theorem after_header_line_request (st : headers_state) (request value : string_view)
    (line cstr : List Nat) : (after_header_line st request value line cstr).request = request := by
  unfold after_header_line
  split
  · rfl
  · split <;> rfl

/-! ## Where parse_headers leaves the request view -/

/-- The loop of `parse_headers` on a view of the block `hb`: it returns and
leaves the request view on the bytes after the first empty line of `hb`. -/
theorem parse_headers_loop_request :
    ∀ (fuel : Nat) (st : headers_state) (hb tl : List Nat),
      st.request.data.cstr = hb ++ tl → st.request.size = hb.length → hb.length < fuel →
      ∃ st', parse_headers_loop fuel st = some st' ∧
        after_blank_line hb <:+ hb ∧
        st'.request = ⟨st.request.data.add (hb.length - (after_blank_line hb).length),
          (after_blank_line hb).length⟩ := by
  intro fuel
  induction fuel with
  | zero => intro st hb tl _ _ h; omega
  | succ fuel ih =>
    intro st hb tl hc hsz hfuel
    by_cases hs : st.request.size > 0
    · obtain ⟨cr, hcr, _⟩ := strip_cr_append (hb.takeWhile (· ≠ 10))
      by_cases h10 : 10 ∈ hb
      · obtain ⟨l, t, hlt, hl⟩ := exists_first_split 10 hb h10
        have hlen : hb.length = l.length + 1 + t.length := by rw [hlt]; simp; omega
        have hc1 : st.request.data.cstr = l ++ 10 :: (t ++ tl) := by rw [hc, hlt]; simp
        have hchop := sv_chop_char_found st.request 10 l _ hc1 hl (by omega)
        have htw : hb.takeWhile (· ≠ 10) = l := by rw [hlt]; exact (takeWhile_ne_append 10 l t hl).1
        rw [htw] at hcr
        rw [parse_headers_loop_step fuel st l cr _ _ hs hc1 hcr hchop, hlt,
          after_blank_line_append l t hl]
        have hc2 : (st.request.data.add (l.length + 1)).cstr = t ++ tl := by
          have : st.request.data.cstr = (l ++ [10]) ++ (t ++ tl) := by rw [hc1]; simp
          simpa using cstr_add_of_append _ _ _ this
        by_cases hbl : is_blank l = true
        · simp only [hbl, if_true]
          refine ⟨_, rfl, ⟨l ++ [10], by simp⟩, ?_⟩
          show string_view.mk _ _ = _
          congr 1
          · congr 1
            simp only [List.length_append, List.length_cons]
            omega
          · omega
        · simp only [hbl, if_false, Bool.false_eq_true]
          obtain ⟨st', hst', hsuf, hreq⟩ := ih
            (after_header_line st
              ⟨st.request.data.add (l.length + 1), st.request.size - (l.length + 1)⟩
              ⟨st.request.data.add ((strip_cr l).length - (header_value (strip_cr l)).length),
                (header_value (strip_cr l)).length⟩
              (strip_cr l) (header_value (strip_cr l) ++ (cr ++ (10 :: (t ++ tl)))))
            t tl
            (by rw [after_header_line_request]; exact hc2)
            (by rw [after_header_line_request]; dsimp only; omega)
            (by omega)
          refine ⟨st', hst', ?_, ?_⟩
          · obtain ⟨pre, hpre⟩ := hsuf
            exact ⟨l ++ 10 :: pre, by simp [hpre]⟩
          · rw [hreq, after_header_line_request]
            have hle : (after_blank_line t).length ≤ t.length := hsuf.length_le
            dsimp only
            rw [ptr_add_add]
            congr 2
            simp only [List.length_append, List.length_cons]
            omega
      · have hchop := sv_chop_char_absent st.request 10 hb tl hc h10 hsz.symm
        have htw : hb.takeWhile (· ≠ 10) = hb := (takeWhile_ne_of_not_mem 10 hb h10).1
        rw [htw] at hcr
        rw [hsz] at hchop
        rw [parse_headers_loop_step fuel st hb cr _ _ hs hc hcr hchop,
          after_blank_line_of_not_mem hb h10]
        have hc2 : (st.request.data.add hb.length).cstr = [] ++ tl := by
          simpa using cstr_add_of_append _ _ _ hc
        by_cases hbl : is_blank hb = true
        · simp only [hbl, if_true]
          exact ⟨_, rfl, ⟨hb, by simp⟩, by simp⟩
        · simp only [hbl, if_false, Bool.false_eq_true]
          obtain ⟨st', hst', _, hreq⟩ := ih
            (after_header_line st ⟨st.request.data.add hb.length, 0⟩
              ⟨st.request.data.add ((strip_cr hb).length - (header_value (strip_cr hb)).length),
                (header_value (strip_cr hb)).length⟩
              (strip_cr hb) (header_value (strip_cr hb) ++ (cr ++ tl)))
            [] tl
            (by rw [after_header_line_request]; exact hc2)
            (by rw [after_header_line_request]; rfl)
            (by simp only [List.length_nil]; omega)
          refine ⟨st', hst', ⟨hb, by simp⟩, ?_⟩
          rw [hreq, after_header_line_request]
          simp [after_blank_line_of_not_mem [] (by simp), ptr_add_add]
    · have h0 : hb = [] := List.length_eq_zero.mp (by omega)
      subst h0
      rw [parse_headers_loop]
      simp only [hs, if_false]
      refine ⟨st, rfl, ⟨[], by simp [after_blank_line_of_not_mem]⟩, ?_⟩
      have hz : st.request.size = 0 := by omega
      simp only [after_blank_line_of_not_mem [] (by simp), List.length_nil, Nat.sub_zero]
      obtain ⟨⟨d, sz⟩, ua, cl⟩ := st
      dsimp only at hz ⊢
      subst hz
      rfl

/-! ## The body returned by parse_http_request -/

theorem parse_request_line_request (request : string_view) (rl : request_line)
    (h : parse_request_line request = some rl) :
    rl.request = (sv_chop_char request 10).2 := by
  unfold parse_request_line at h
  by_cases hz : (sv_chop_char request 10).1.size = 0
  · simp [hz] at h
  · simp only [hz, if_false, Option.some.injEq] at h
    rw [← h]

/-- Where the first `sv_chop_char(request, '\n')` leaves the request view: on
the bytes after the first `\n`. -/
theorem request_after_line (p : Ptr) (n : Nat) (raw tl : List Nat) (hc : p.cstr = raw ++ tl)
    (hlen : raw.length = n) :
    (raw.dropWhile (· ≠ 10)).drop 1 <:+ raw ∧
    (sv_chop_char ⟨p, n⟩ 10).2 =
      ⟨p.add (n - ((raw.dropWhile (· ≠ 10)).drop 1).length),
        ((raw.dropWhile (· ≠ 10)).drop 1).length⟩ ∧
    (p.add (n - ((raw.dropWhile (· ≠ 10)).drop 1).length)).cstr =
      (raw.dropWhile (· ≠ 10)).drop 1 ++ tl := by
  by_cases h10 : 10 ∈ raw
  · obtain ⟨l, t, hlt, hl⟩ := exists_first_split 10 raw h10
    have hdw : (raw.dropWhile (· ≠ 10)).drop 1 = t := by
      rw [hlt, (takeWhile_ne_append 10 l t hl).2]; rfl
    have hn : n = l.length + 1 + t.length := by rw [← hlen, hlt]; simp; omega
    have hc1 : p.cstr = l ++ 10 :: (t ++ tl) := by rw [hc, hlt]; simp
    have hchop := sv_chop_char_found ⟨p, n⟩ 10 l _ hc1 hl (by dsimp only; omega)
    dsimp only at hchop
    have hoff : n - t.length = l.length + 1 := by omega
    rw [hdw, hchop, hoff]
    refine ⟨⟨l ++ [10], by rw [hlt]; simp⟩, ?_, ?_⟩
    · dsimp only
      congr 1
      omega
    · have : p.cstr = (l ++ [10]) ++ (t ++ tl) := by rw [hc1]; simp
      simpa using cstr_add_of_append _ _ _ this
  · have hdw : (raw.dropWhile (· ≠ 10)).drop 1 = [] := by
      rw [(takeWhile_ne_of_not_mem 10 raw h10).2]; rfl
    have hchop := sv_chop_char_absent ⟨p, n⟩ 10 raw tl hc h10 hlen
    dsimp only at hchop
    rw [hdw, hchop]
    refine ⟨⟨raw, by simp⟩, by simp, ?_⟩
    rw [← hlen]
    simpa using cstr_add_of_append _ _ _ hc

/-- C10: for a receive buffer of `raw_request_len` bytes whose request line (the
bytes before the first `\n`) is not empty, `parse_http_request` returns, and the
body it returns is a suffix of the buffer: it starts `consumed` bytes into the
buffer, with `consumed` at most the length and `consumed` plus the body size
equal to the length; its bytes are exactly the bytes that follow the first
empty header line (`\n` or `\r\n`) after the request line, and none when there
is no such line. -/
theorem parse_http_request_body (raw_request : Ptr) (raw_request_len : Nat)
    (hin : (sv_create raw_request raw_request_len).InBuf)
    (hline : (sv_create raw_request raw_request_len).bytes.takeWhile (· ≠ 10) ≠ []) :
    ∃ r consumed, parse_http_request raw_request raw_request_len = Outcome.ret r ∧
      consumed ≤ raw_request_len ∧ consumed + r.body.size = raw_request_len ∧
      r.body = ⟨raw_request.add consumed, raw_request_len - consumed⟩ ∧
      r.body.bytes <:+ (sv_create raw_request raw_request_len).bytes ∧
      r.body.bytes = after_blank_line
        (((sv_create raw_request raw_request_len).bytes.dropWhile (· ≠ 10)).drop 1) := by
  obtain ⟨tl, hc⟩ : ∃ tl, raw_request.cstr = (sv_create raw_request raw_request_len).bytes ++ tl :=
    ⟨_, cstr_eq_bytes_append (sv_create raw_request raw_request_len)⟩
  have hlen : (sv_create raw_request raw_request_len).bytes.length = raw_request_len :=
    bytes_length _ hin
  generalize (sv_create raw_request raw_request_len).bytes = raw at hc hlen hline
  obtain ⟨hsuf, hreq, hcr⟩ := request_after_line raw_request raw_request_len raw tl hc hlen
  generalize (raw.dropWhile (· ≠ 10)).drop 1 = rest at hsuf hreq hcr
  have hrest : rest.length ≤ raw_request_len := hlen ▸ hsuf.length_le
  -- the request line
  cases hrl : parse_request_line (sv_create raw_request raw_request_len) with
  | none =>
    have := (parse_request_line_eq_none_iff _ hin).mp hrl
    rw [show (sv_create raw_request raw_request_len).bytes = raw from by
      have h1 := cstr_eq_bytes_append (sv_create raw_request raw_request_len)
      have h2 : (sv_create raw_request raw_request_len).bytes =
          raw_request.cstr.take raw_request_len := rfl
      rw [h2, hc, ← hlen, List.take_left]] at this
    exact absurd this hline
  | some rl =>
    have hrq : rl.request = ⟨raw_request.add (raw_request_len - rest.length), rest.length⟩ := by
      rw [parse_request_line_request _ rl hrl]
      exact hreq
    -- the headers
    obtain ⟨st, hst, hsuf2, hstreq⟩ := parse_headers_loop_request (rl.request.size + 1)
      ⟨rl.request, SV_LITERAL (ascii ""), 0⟩ rest tl
      (by rw [hrq]; exact hcr) (by rw [hrq]) (by rw [hrq]; exact Nat.lt_succ_self _)
    have hB : (after_blank_line rest).length ≤ rest.length := hsuf2.length_le
    have hstsz : st.request.size = (after_blank_line rest).length := by rw [hstreq]
    have hrlsz : rl.request.size = rest.length := by rw [hrq]
    have hres : parse_http_request raw_request raw_request_len = Outcome.ret
        ⟨rl.method, rl.path, rl.protocol, st.user_agent, st.content_length,
          ⟨raw_request.add (raw_request_len - (after_blank_line rest).length),
            (after_blank_line rest).length⟩⟩ := by
      unfold parse_http_request parse_headers
      simp only [hrl, hst]
      simp only [sv_create, hstsz, hrlsz]
      congr 3
      · congr 1
        omega
      · omega
    obtain ⟨pre1, hpre1⟩ := hsuf
    obtain ⟨pre2, hpre2⟩ := hsuf2
    have hraw : raw = (pre1 ++ pre2) ++ after_blank_line rest := by
      simp [hpre2, hpre1]
    have hpl : (pre1 ++ pre2).length = raw_request_len - (after_blank_line rest).length := by
      have := congrArg List.length hraw
      rw [hlen, List.length_append] at this
      omega
    have hbytes : string_view.bytes
        ⟨raw_request.add (raw_request_len - (after_blank_line rest).length),
          (after_blank_line rest).length⟩ = after_blank_line rest := by
      rw [← hpl]
      apply bytes_of_cstr raw_request (pre1 ++ pre2) (after_blank_line rest) tl
      rw [hc, hraw]
      simp
    refine ⟨_, raw_request_len - (after_blank_line rest).length, hres, by omega, ?_, ?_, ?_, ?_⟩
    · dsimp only; omega
    · dsimp only
      congr 1
      omega
    · dsimp only
      rw [hbytes]
      exact ⟨pre1 ++ pre2, hraw.symm⟩
    · exact hbytes

/-- C10, at a concrete input: a POST request of which the first 29 bytes are
parsed, so that the body is the 3 bytes `hel` that follow the empty line. -/
theorem parse_http_request_body_witness :
    ∃ r consumed,
      parse_http_request (recv_buffer (ascii "POST /f HTTP/1.1\r\nA: b\r\n\r\nhello") []) 29 =
        Outcome.ret r ∧
      consumed ≤ 29 ∧ consumed + r.body.size = 29 ∧
      r.body = ⟨(recv_buffer (ascii "POST /f HTTP/1.1\r\nA: b\r\n\r\nhello") []).add consumed,
        29 - consumed⟩ ∧
      r.body.bytes <:+
        (sv_create (recv_buffer (ascii "POST /f HTTP/1.1\r\nA: b\r\n\r\nhello") []) 29).bytes ∧
      r.body.bytes = after_blank_line
        (((sv_create (recv_buffer (ascii "POST /f HTTP/1.1\r\nA: b\r\n\r\nhello") [])
          29).bytes.dropWhile (· ≠ 10)).drop 1) :=
  parse_http_request_body (recv_buffer (ascii "POST /f HTTP/1.1\r\nA: b\r\n\r\nhello") []) 29
    (by decide) (by decide)

/-! ## strtoul on a header value -/

theorem decimal_value_eq_number_of_digits (ds : List Nat) :
    decimal_value ds = number_of_digits ds := by
  induction ds using List.reverseRecOn with
  | nil => rfl
  | append_singleton init d ih =>
    unfold decimal_value number_of_digits at *
    rw [List.foldl_append, List.map_append, List.reverse_append]
    simp only [List.foldl_cons, List.foldl_nil, List.map_cons, List.map_nil,
      List.reverse_cons, List.reverse_nil, List.nil_append, List.singleton_append,
      Nat.ofDigits_cons]
    rw [ih]
    ring

theorem takeWhile_append_of_head (p : Nat → Bool) (V after : List Nat)
    (h : ∀ x, after.head? = some x → p x = false) :
    (V ++ after).takeWhile p = V.takeWhile p := by
  induction V with
  | nil =>
    cases after with
    | nil => rfl
    | cons x after => simp [List.takeWhile_cons, h x rfl]
  | cons c V ih =>
    simp only [List.cons_append, List.takeWhile_cons, ih]

/-- On a value that starts with a byte that is neither white space nor a sign,
and is followed by a byte that is not a digit, `strtoul` yields the number
denoted by the leading digits of the value, capped at `ULONG_MAX`. -/
theorem strtoul_str_plain (value after : List Nat) (hv : plain_start value)
    (h : ∀ x, after.head? = some x → isdigit x = false) :
    strtoul_str (value ++ after) =
      min (number_of_digits (value.takeWhile isdigit)) ULONG_MAX := by
  obtain ⟨c, v, rfl, hsp, h43, h45⟩ := hv
  unfold strtoul_str
  have hdw : (c :: v ++ after).dropWhile isspace = c :: (v ++ after) := by
    simp [List.dropWhile_cons, hsp]
  rw [hdw]
  have hm : (match c :: (v ++ after) with
      | 43 :: t => (false, t)
      | 45 :: t => (true, t)
      | _ => (false, c :: (v ++ after))) = (false, c :: (v ++ after)) := by
    split
    · next heq => cases heq; exact absurd rfl h43
    · next heq => cases heq; exact absurd rfl h45
    · rfl
  simp only [hm]
  have htw : (c :: (v ++ after)).takeWhile isdigit = (c :: v).takeWhile isdigit := by
    rw [← List.cons_append]
    exact takeWhile_append_of_head isdigit (c :: v) after h
  rw [htw, decimal_value_eq_number_of_digits]
  by_cases hnil : (c :: v).takeWhile isdigit = []
  · simp [hnil, number_of_digits]
  · simp only [hnil, if_false, Bool.false_eq_true]
    by_cases hlt : ULONG_MAX < number_of_digits ((c :: v).takeWhile isdigit)
    · simp only [hlt, if_true]
      omega
    · simp only [hlt, if_false]
      omega

theorem dropWhile_append_of_mem (p : Nat → Bool) (value after : List Nat)
    (h : ∃ c ∈ value, p c = false) :
    (value ++ after).dropWhile p = value.dropWhile p ++ after ∧ value.dropWhile p ≠ [] := by
  induction value with
  | nil =>
    obtain ⟨c, hc, _⟩ := h
    cases hc
  | cons x value ih =>
    by_cases hx : p x = true
    · obtain ⟨c, hc, hpc⟩ := h
      have hmem : c ∈ value := by
        rcases List.mem_cons.mp hc with h1 | h1
        · subst h1
          rw [hx] at hpc
          cases hpc
        · exact h1
      simpa [List.dropWhile_cons, hx] using ih ⟨c, hmem, hpc⟩
    · simp [List.dropWhile_cons, hx]

/-- On a value with a byte that is not white space, followed in the buffer by a
byte that is not a digit, `strtoul` yields what it yields on the value alone:
it does not depend on the bytes after the value. -/
theorem strtoul_str_append (value after : List Nat) (hv : has_nonspace value)
    (h : ∀ x, after.head? = some x → isdigit x = false) :
    strtoul_str (value ++ after) = strtoul_str value := by
  obtain ⟨hdw, hne⟩ := dropWhile_append_of_mem isspace value after hv
  unfold strtoul_str
  rw [hdw]
  cases hs : value.dropWhile isspace with
  | nil => exact absurd hs hne
  | cons c v =>
    by_cases h43 : c = 43
    · subst h43
      simp only [List.cons_append, takeWhile_append_of_head isdigit v after h]
    · by_cases h45 : c = 45
      · subst h45
        simp only [List.cons_append, takeWhile_append_of_head isdigit v after h]
      · have hm1 : (match c :: v ++ after with
            | 43 :: t => (false, t)
            | 45 :: t => (true, t)
            | _ => (false, c :: v ++ after)) = (false, c :: v ++ after) := by
          split
          · next heq => cases heq; exact absurd rfl h43
          · next heq => cases heq; exact absurd rfl h45
          · rfl
        have hm2 : (match c :: v with
            | 43 :: t => (false, t)
            | 45 :: t => (true, t)
            | _ => (false, c :: v)) = (false, c :: v) := by
          split
          · next heq => cases heq; exact absurd rfl h43
          · next heq => cases heq; exact absurd rfl h45
          · rfl
        simp only [hm1, hm2, takeWhile_append_of_head isdigit (c :: v) after h]

/-- On a value that starts with a byte that is neither white space nor a sign,
`strtoul` yields the number denoted by the leading decimal digits of the value,
capped at `ULONG_MAX` (so 0 when the value starts with no digit). -/
theorem strtoul_str_of_plain_start (value : List Nat) (hv : plain_start value) :
    strtoul_str value = min (number_of_digits (value.takeWhile isdigit)) ULONG_MAX := by
  have h := strtoul_str_plain value [] hv (by simp)
  simpa using h

/-! ## The content length parse_headers produces -/

theorem is_blank_iff (l : List Nat) : is_blank l = true ↔ strip_cr l = [] := by
  simp [is_blank]

theorem header_lines_append (l t : List Nat) (h : 10 ∉ l) :
    header_lines (l ++ 10 :: t) =
      if strip_cr l = [] then [] else strip_cr l :: header_lines t := by
  unfold header_lines
  rw [split_lines_append l t h]
  by_cases hb : strip_cr l = []
  · simp [List.takeWhile_cons, hb]
  · simp [List.takeWhile_cons, hb]

theorem header_lines_of_not_mem (l : List Nat) (h : 10 ∉ l) :
    header_lines l = if strip_cr l = [] then [] else [strip_cr l] := by
  unfold header_lines
  rw [split_lines_of_not_mem l h]
  by_cases hb : strip_cr l = []
  · simp [List.takeWhile_cons, hb]
  · simp [List.takeWhile_cons, hb]

theorem content_length_from_nil (cl : Nat) : content_length_from cl [] = cl := rfl

theorem content_length_from_cons (cl : Nat) (l : List Nat) (ls : List (List Nat)) :
    content_length_from cl (l :: ls) =
      content_length_from
        (if has_name "Content-Length" l then strtoul_str (header_value l) else cl) ls := by
  unfold content_length_from
  by_cases hn : has_name "Content-Length" l = true
  · rw [List.filter_cons_of_pos hn]
    cases hf : ls.filter (has_name "Content-Length") with
    | nil => simp [hn]
    | cons x xs =>
      have h1 : (x :: xs).getLast? = some ((x :: xs).getLast (by simp)) :=
        List.getLast?_eq_getLast _ _
      simp [hn, List.getLast?_cons_cons, h1]
  · rw [List.filter_cons_of_neg hn]
    simp [hn]

theorem has_name_exclusive (l : List Nat) (h : has_name "Content-Length" l = true) :
    has_name "User-Agent" l = false := by
  unfold has_name at *
  rw [decide_eq_true_iff] at h
  rw [decide_eq_false_iff_not, h]
  decide

theorem after_header_line_content_length (st : headers_state) (request value : string_view)
    (line after : List Nat) (hcr : ∀ x, after.head? = some x → isdigit x = false)
    (hv : has_name "Content-Length" line = true → has_nonspace (header_value line)) :
    (after_header_line st request value line (header_value line ++ after)).content_length =
      if has_name "Content-Length" line then strtoul_str (header_value line)
      else st.content_length := by
  unfold after_header_line
  by_cases hcl : has_name "Content-Length" line = true
  · simp only [has_name_exclusive line hcl, hcl, if_true, Bool.false_eq_true, if_false]
    exact strtoul_str_append _ _ (hv hcl) hcr
  · by_cases hua : has_name "User-Agent" line = true
    · simp only [hua, hcl, if_true, if_false, Bool.false_eq_true]
    · simp only [hua, hcl, if_false, Bool.false_eq_true]

theorem head_not_digit_of_cr (cr t : List Nat) (hcr : cr = [] ∨ cr = [13])
    (ht : ∀ x, t.head? = some x → isdigit x = false) :
    ∀ x, (cr ++ t).head? = some x → isdigit x = false := by
  rcases hcr with h | h
  · subst h
    simpa using ht
  · subst h
    intro x hx
    simp only [List.singleton_append, List.head?_cons, Option.some.injEq] at hx
    subst hx
    decide

/-- The loop of `parse_headers` on a view of the block `hb`, which is followed
by a NUL in the buffer: when the value of each `Content-Length` line has a byte
that is not white space, the loop returns with the content length the header
lines of `hb` announce. -/
theorem parse_headers_loop_content_length :
    ∀ (fuel : Nat) (st : headers_state) (hb junk : List Nat),
      st.request.data.cstr = hb ++ 0 :: junk → st.request.size = hb.length → hb.length < fuel →
      (∀ l ∈ header_lines hb, has_name "Content-Length" l = true →
        has_nonspace (header_value l)) →
      ∃ st', parse_headers_loop fuel st = some st' ∧
        st'.content_length = content_length_from st.content_length (header_lines hb) := by
  intro fuel
  induction fuel with
  | zero => intro st hb junk _ _ h; omega
  | succ fuel ih =>
    intro st hb junk hc hsz hfuel hcov
    by_cases hs : st.request.size > 0
    · obtain ⟨cr, hcr, hcr2⟩ := strip_cr_append (hb.takeWhile (· ≠ 10))
      by_cases h10 : 10 ∈ hb
      · obtain ⟨l, t, hlt, hl⟩ := exists_first_split 10 hb h10
        have hlen : hb.length = l.length + 1 + t.length := by rw [hlt]; simp; omega
        have hc1 : st.request.data.cstr = l ++ 10 :: (t ++ 0 :: junk) := by
          rw [hc, hlt]; simp
        have hchop := sv_chop_char_found st.request 10 l _ hc1 hl (by omega)
        have htw : hb.takeWhile (· ≠ 10) = l := by
          rw [hlt]; exact (takeWhile_ne_append 10 l t hl).1
        rw [htw] at hcr
        rw [parse_headers_loop_step fuel st l cr _ _ hs hc1 hcr hchop]
        have hhl := header_lines_append l t hl
        rw [← hlt] at hhl
        have hc2 : (st.request.data.add (l.length + 1)).cstr = t ++ 0 :: junk := by
          have : st.request.data.cstr = (l ++ [10]) ++ (t ++ 0 :: junk) := by rw [hc1]; simp
          simpa using cstr_add_of_append _ _ _ this
        by_cases hbl : strip_cr l = []
        · simp only [(is_blank_iff l).mpr hbl, if_true]
          refine ⟨_, rfl, ?_⟩
          rw [hhl, if_pos hbl]
          rfl
        · have hbl' : ¬ (is_blank l = true) := fun h => hbl ((is_blank_iff l).mp h)
          simp only [hbl', if_false, Bool.false_eq_true]
          rw [if_neg hbl] at hhl
          obtain ⟨st', hst', hcl⟩ := ih
            (after_header_line st
              ⟨st.request.data.add (l.length + 1), st.request.size - (l.length + 1)⟩
              ⟨st.request.data.add ((strip_cr l).length - (header_value (strip_cr l)).length),
                (header_value (strip_cr l)).length⟩
              (strip_cr l) (header_value (strip_cr l) ++ (cr ++ (10 :: (t ++ 0 :: junk)))))
            t junk
            (by rw [after_header_line_request]; exact hc2)
            (by rw [after_header_line_request]; dsimp only; omega)
            (by omega)
            (fun x hx => hcov x (by rw [hhl]; exact List.mem_cons_of_mem _ hx))
          refine ⟨st', hst', ?_⟩
          rw [hcl, hhl, content_length_from_cons,
            after_header_line_content_length st _ _ (strip_cr l) _
              (head_not_digit_of_cr cr _ hcr2 (by
                intro x hx
                simp only [List.head?_cons, Option.some.injEq] at hx
                subst hx
                decide))
              (hcov (strip_cr l) (by rw [hhl]; exact List.mem_cons_self _ _))]
      · have hchop := sv_chop_char_absent st.request 10 hb (0 :: junk) hc h10 hsz.symm
        have htw : hb.takeWhile (· ≠ 10) = hb := (takeWhile_ne_of_not_mem 10 hb h10).1
        rw [htw] at hcr
        rw [hsz] at hchop
        rw [parse_headers_loop_step fuel st hb cr _ _ hs hc hcr hchop]
        have hhl := header_lines_of_not_mem hb h10
        have hc2 : (st.request.data.add hb.length).cstr = [] ++ 0 :: junk := by
          simpa using cstr_add_of_append _ _ _ hc
        by_cases hbl : strip_cr hb = []
        · simp only [(is_blank_iff hb).mpr hbl, if_true]
          refine ⟨_, rfl, ?_⟩
          rw [hhl, if_pos hbl]
          rfl
        · have hbl' : ¬ (is_blank hb = true) := fun h => hbl ((is_blank_iff hb).mp h)
          simp only [hbl', if_false, Bool.false_eq_true]
          rw [if_neg hbl] at hhl
          obtain ⟨st', hst', hcl⟩ := ih
            (after_header_line st ⟨st.request.data.add hb.length, 0⟩
              ⟨st.request.data.add ((strip_cr hb).length - (header_value (strip_cr hb)).length),
                (header_value (strip_cr hb)).length⟩
              (strip_cr hb) (header_value (strip_cr hb) ++ (cr ++ 0 :: junk)))
            [] junk
            (by rw [after_header_line_request]; exact hc2)
            (by rw [after_header_line_request]; rfl)
            (by simp only [List.length_nil]; omega)
            (fun x hx => by
              rw [header_lines_of_not_mem [] (by simp)] at hx
              simp [strip_cr] at hx)
          refine ⟨st', hst', ?_⟩
          have hnil : header_lines [] = [] := by
            rw [header_lines_of_not_mem [] (by simp)]
            simp [strip_cr]
          rw [hcl, hhl, hnil, content_length_from_nil, content_length_from_cons,
            content_length_from_nil,
            after_header_line_content_length st _ _ (strip_cr hb) _
              (head_not_digit_of_cr cr _ hcr2 (by
                intro x hx
                simp only [List.head?_cons, Option.some.injEq] at hx
                subst hx
                decide))
              (hcov (strip_cr hb) (by rw [hhl]; exact List.mem_cons_self _ _))]
    · have h0 : hb = [] := List.length_eq_zero.mp (by omega)
      subst h0
      rw [parse_headers_loop]
      simp only [hs, if_false]
      refine ⟨st, rfl, ?_⟩
      have hnil : header_lines [] = [] := by
        rw [header_lines_of_not_mem [] (by simp)]
        simp [strip_cr]
      rw [hnil, content_length_from_nil]

/-- C9 (the claim fails): the values `+5` and ` 42` (the second space of
`Content-Length:  42` belongs to the value) do not start with a decimal digit,
and `parse_headers` produces the content lengths 5 and 42, not 0: `strtoul`
accepts a sign and skips leading white space.  The value
`18446744073709551616` denotes 2^64, and the content length produced is
`ULONG_MAX`. -/
theorem content_length_accepts_sign_and_space :
    header_value (ascii "Content-Length: +5") = ascii "+5" ∧
    (parse_http_request
      (recv_buffer (ascii "POST /f HTTP/1.1\r\nContent-Length: +5\r\n\r\n") []) 40).returned.map
      (fun r => r.content_length) = some 5 ∧
    header_value (ascii "Content-Length:  42") = ascii " 42" ∧
    (parse_http_request
      (recv_buffer (ascii "POST /f HTTP/1.1\r\nContent-Length:  42\r\n\r\n") []) 41).returned.map
      (fun r => r.content_length) = some 42 ∧
    (parse_http_request
      (recv_buffer (ascii "POST /f HTTP/1.1\r\nContent-Length: 18446744073709551616\r\n\r\n") [])
      58).returned.map (fun r => r.content_length) = some (2 ^ 64 - 1) := by
  decide

/-- The over-read of `strtoul(value.data, ...)`: the `Content-Length` line has an
empty value, `strtoul` skips the `\r\n` that ends the line and converts the
digit of the next line, so the content length is 7. -/
theorem content_length_reads_past_empty_value :
    (parse_http_request
      (recv_buffer (ascii "GET / HTTP/1.1\r\nContent-Length:\r\n7\r\n\r\n") []) 38).returned.map
      (fun r => r.content_length) = some 7 ∧
    header_value (ascii "Content-Length:") = [] := by
  decide

/-- C9 (amended): for a header block in the receive buffer of `handle_client`
(the received bytes are followed by a NUL) in which the value of every
`Content-Length` line (name compared ignoring ASCII case) has a byte that is
not white space, `parse_headers` returns and the content length it produces is
0 when there is no `Content-Length` line, and otherwise what `strtoul` yields on
the value of the last such line taken on its own (white space skipped, an
optional sign, the leading decimal digits, capped at `ULONG_MAX`), whatever
follows that value in the buffer; when that value starts with a byte that is
neither white space nor a sign, this is the number denoted by its leading
decimal digits, capped at `ULONG_MAX`, so 0 when it starts with no digit. -/
theorem parse_headers_content_length (request : string_view) (block junk : List Nat)
    (hc : request.data.cstr = block ++ 0 :: junk) (hsz : request.size = block.length)
    (hcov : ∀ l ∈ header_lines block, has_name "Content-Length" l = true →
      has_nonspace (header_value l)) :
    ∃ st, parse_headers request = some st ∧
      st.content_length = announced_content_length (header_lines block) ∧
      (((header_lines block).filter (has_name "Content-Length")).getLast? = none →
        st.content_length = 0) ∧
      (∀ l, ((header_lines block).filter (has_name "Content-Length")).getLast? = some l →
        plain_start (header_value l) →
        st.content_length =
          min (number_of_digits ((header_value l).takeWhile isdigit)) ULONG_MAX) := by
  obtain ⟨st, hst, hcl⟩ := parse_headers_loop_content_length (request.size + 1)
    ⟨request, SV_LITERAL (ascii ""), 0⟩ block junk hc hsz (by omega) hcov
  have hann : st.content_length = announced_content_length (header_lines block) := hcl
  refine ⟨st, hst, hann, ?_, ?_⟩
  · intro hnone
    rw [hann]
    unfold announced_content_length
    rw [hnone]
  · intro l hl hp
    rw [hann]
    unfold announced_content_length
    rw [hl]
    exact strtoul_str_of_plain_start _ hp

/-- C9 (amended), at a concrete input: `content-length: 12` among the headers
gives the content length 12. -/
theorem parse_headers_content_length_witness :
    ∃ st, parse_headers
        ⟨recv_buffer (ascii "Host: x\r\ncontent-length: 12\r\n\r\nhello world!") [], 43⟩ =
        some st ∧
      st.content_length = 12 := by
  obtain ⟨st, h1, h2, _⟩ := parse_headers_content_length
    ⟨recv_buffer (ascii "Host: x\r\ncontent-length: 12\r\n\r\nhello world!") [], 43⟩
    (ascii "Host: x\r\ncontent-length: 12\r\n\r\nhello world!") [] (by decide) (by decide)
    (by
      intro l hl hn
      have hlines : header_lines (ascii "Host: x\r\ncontent-length: 12\r\n\r\nhello world!") =
          [ascii "Host: x", ascii "content-length: 12"] := by decide
      rw [hlines] at hl
      simp only [List.mem_cons, List.mem_singleton, List.not_mem_nil, or_false] at hl
      rcases hl with rfl | rfl
      · exact absurd hn (by decide)
      · exact ⟨49, by decide, by decide⟩)
  exact ⟨st, h1, h2.trans (by decide)⟩

/-! ## What after_blank_line denotes -/

/-- After header lines that are not empty, an empty line and then `B`: the bytes
after the first empty line are `B`. -/
theorem after_blank_line_of_blank (hs : List (List Nat)) (blank B : List Nat)
    (hhs : ∀ l ∈ hs, 10 ∉ l ∧ is_blank l = false) (hblank : blank = [] ∨ blank = [13]) :
    after_blank_line ((hs.map (· ++ [10])).flatten ++ (blank ++ 10 :: B)) = B := by
  induction hs with
  | nil =>
    have h10 : 10 ∉ blank := by rcases hblank with h | h <;> subst h <;> simp
    have hb : is_blank blank = true := by rcases hblank with h | h <;> subst h <;> decide
    simp only [List.map_nil, List.flatten_nil, List.nil_append]
    rw [after_blank_line_append blank B h10, if_pos hb]
  | cons l hs ih =>
    obtain ⟨h10, hnb⟩ := hhs l (List.mem_cons_self _ _)
    have heq : ((l :: hs).map (· ++ [10])).flatten ++ (blank ++ 10 :: B) =
        l ++ 10 :: ((hs.map (· ++ [10])).flatten ++ (blank ++ 10 :: B)) := by simp
    rw [heq, after_blank_line_append l _ h10, hnb]
    simp only [Bool.false_eq_true, if_false]
    exact ih (fun x hx => hhs x (List.mem_cons_of_mem _ hx))

/-- Without an empty line, nothing follows the first empty line. -/
theorem after_blank_line_of_no_blank (hs : List (List Nat)) (last : List Nat)
    (hhs : ∀ l ∈ hs, 10 ∉ l ∧ is_blank l = false) (hlast : 10 ∉ last) :
    after_blank_line ((hs.map (· ++ [10])).flatten ++ last) = [] := by
  induction hs with
  | nil =>
    simp only [List.map_nil, List.flatten_nil, List.nil_append]
    exact after_blank_line_of_not_mem last hlast
  | cons l hs ih =>
    obtain ⟨h10, hnb⟩ := hhs l (List.mem_cons_self _ _)
    have heq : ((l :: hs).map (· ++ [10])).flatten ++ last =
        l ++ 10 :: ((hs.map (· ++ [10])).flatten ++ last) := by simp
    rw [heq, after_blank_line_append l _ h10, hnb]
    simp only [Bool.false_eq_true, if_false]
    exact ih (fun x hx => hhs x (List.mem_cons_of_mem _ hx))

/-! ## The dispatch of handle_client -/

/-- Comparing a view with a literal, ignoring case. -/
theorem sv_equals_lit (sv : string_view) (hin : sv.InBuf) (lit : List Nat) :
    sv_equals sv (SV_LITERAL lit) true =
      decide (sv.bytes.map ascii_lower = lit.map ascii_lower) := by
  obtain ⟨hb, hi, hs⟩ := SV_LITERAL_bytes lit
  rw [Bool.eq_iff_iff, sv_equals_ignorecase_iff sv _ hin hi, hb, hs, decide_eq_true_iff]
  constructor
  · exact fun h => h.2
  · intro h
    refine ⟨?_, h⟩
    have := congrArg List.length h
    simp only [List.length_map] at this
    rw [← this, bytes_length sv hin]

/-- Testing a view for a literal prefix, ignoring case. -/
theorem sv_has_prefix_lit (sv : string_view) (hin : sv.InBuf) (lit : List Nat) :
    sv_has_prefix sv (SV_LITERAL lit) true =
      decide ((sv.bytes.take lit.length).map ascii_lower = lit.map ascii_lower) := by
  obtain ⟨hb, hi, hs⟩ := SV_LITERAL_bytes lit
  unfold sv_has_prefix
  rw [hs]
  by_cases hlt : sv.size < lit.length
  · simp only [hlt, if_true]
    symm
    rw [decide_eq_false_iff_not]
    intro h
    have := congrArg List.length h
    simp only [List.length_map, List.length_take, bytes_length sv hin] at this
    omega
  · simp only [hlt, if_false, sv_create]
    have hin2 : string_view.InBuf ⟨sv.data, lit.length⟩ := by
      unfold string_view.InBuf at *
      dsimp only
      omega
    have hbytes : string_view.bytes ⟨sv.data, lit.length⟩ = sv.bytes.take lit.length := by
      simp only [string_view.bytes, List.take_take]
      congr 1
      omega
    rw [sv_equals_lit _ hin2 lit, hbytes]

theorem dispatch_eq_first_match (path : string_view) (h : path.InBuf) :
    dispatch path = first_match route_table path.bytes := by
  unfold dispatch first_match route_table
  simp only [sv_equals_lit path h, sv_has_prefix_lit path h, List.find?, route_matches]
  generalize decide (path.bytes.map ascii_lower = (ascii "/").map ascii_lower) = b1
  generalize decide ((path.bytes.take (ascii "/echo/").length).map ascii_lower =
    (ascii "/echo/").map ascii_lower) = b2
  generalize decide (path.bytes.map ascii_lower = (ascii "/user-agent").map ascii_lower) = b3
  generalize decide ((path.bytes.take (ascii "/files/").length).map ascii_lower =
    (ascii "/files/").map ascii_lower) = b4
  generalize decide (path.bytes.map ascii_lower = (ascii "/image").map ascii_lower) = b5
  cases b1 <;> cases b2 <;> cases b3 <;> cases b4 <;> cases b5 <;> rfl

theorem first_match_not_found_iff (path : List Nat) :
    first_match route_table path = route_target.not_found ↔
      ∀ r ∈ route_table, route_matches r path = false := by
  unfold first_match
  cases hf : route_table.find? (fun r => route_matches r path) with
  | none =>
    simp only [true_iff]
    intro r hr
    have := List.find?_eq_none.mp hf r hr
    simpa using this
  | some r =>
    have hmem : r ∈ route_table := List.mem_of_find?_eq_some hf
    have hm : route_matches r path = true := by
      have := List.find?_some hf
      simpa using this
    constructor
    · intro ht
      exfalso
      simp only [route_table, List.mem_cons, List.mem_singleton, List.not_mem_nil,
        or_false] at hmem
      rcases hmem with rfl | rfl | rfl | rfl | rfl <;> cases ht
    · intro hall
      have := hall r hmem
      rw [hm] at this
      cases this

/-- C11: for a path inside its buffer, the dispatch of `handle_client` selects
the target of the first row of the route table that matches, comparing ignoring
ASCII case (root for `/`, echo for the prefix `/echo/`, user-agent for
`/user-agent`, the file handler for the prefix `/files/`, the image page for
`/image`); it selects the 404 response if and only if no row matches; and it
depends on the bytes of the path alone. -/
theorem dispatch_spec (path : string_view) (h : path.InBuf) :
    dispatch path = first_match route_table path.bytes ∧
    (dispatch path = route_target.not_found ↔
      ∀ r ∈ route_table, route_matches r path.bytes = false) ∧
    (∀ other : string_view, other.InBuf → other.bytes = path.bytes →
      dispatch other = dispatch path) := by
  refine ⟨dispatch_eq_first_match path h, ?_, ?_⟩
  · rw [dispatch_eq_first_match path h]
    exact first_match_not_found_iff path.bytes
  · intro other ho hb
    rw [dispatch_eq_first_match path h, dispatch_eq_first_match other ho, hb]

/-- C11, at a concrete input: `/ECHO/x` is routed to the echo handler. -/
theorem dispatch_spec_witness :
    dispatch (view (ascii "/ECHO/x")) = route_target.echo :=
  (dispatch_spec (view (ascii "/ECHO/x")) (by decide)).1.trans (by decide)

/-! ## Formatting a response -/

theorem c_str_of_no_nul (l : List Nat) (h : 0 ∉ l) : c_str l = l :=
  (takeWhile_ne_of_not_mem 0 l h).1

theorem decimal_digits_mem (fuel : Nat) :
    ∀ (n d : Nat), d ∈ decimal_digits fuel n → 48 ≤ d ∧ d ≤ 57 := by
  induction fuel with
  | zero => intro n d h; simp [decimal_digits] at h
  | succ fuel ih =>
    intro n d h
    unfold decimal_digits at h
    by_cases hn : n < 10
    · simp only [hn, if_true, List.mem_singleton] at h
      omega
    · simp only [hn, if_false, List.mem_append, List.mem_singleton] at h
      rcases h with h | h
      · exact ih _ _ h
      · omega

theorem decimal_digits_length_le (fuel : Nat) :
    ∀ (n k : Nat), 0 < k → n < 10 ^ k → (decimal_digits fuel n).length ≤ k := by
  induction fuel with
  | zero => intro n k _ _; simp [decimal_digits]
  | succ fuel ih =>
    intro n k hk hn
    unfold decimal_digits
    by_cases h10 : n < 10
    · simp only [h10, if_true, List.length_singleton]
      omega
    · simp only [h10, if_false, List.length_append, List.length_singleton]
      cases k with
      | zero => omega
      | succ k =>
        cases k with
        | zero => simp at hn; omega
        | succ k =>
          have := ih (n / 10) (k + 1) (by omega) (by
            rw [pow_succ] at hn
            exact Nat.div_lt_of_lt_mul (by rw [Nat.mul_comm]; exact hn))
          omega

theorem number_of_digits_concat (ds : List Nat) (d : Nat) :
    number_of_digits (ds ++ [d]) = number_of_digits ds * 10 + (d - 48) := by
  simp only [number_of_digits, List.map_append, List.map_cons, List.map_nil,
    List.reverse_append, List.reverse_cons, List.reverse_nil, List.nil_append,
    List.singleton_append, Nat.ofDigits_cons]
  ring

theorem number_of_digits_decimal_digits (fuel : Nat) :
    ∀ n : Nat, n < fuel → number_of_digits (decimal_digits fuel n) = n := by
  induction fuel with
  | zero => intro n h; omega
  | succ fuel ih =>
    intro n h
    unfold decimal_digits
    by_cases h10 : n < 10
    · simp [h10, number_of_digits]
    · simp only [h10, if_false]
      rw [number_of_digits_concat, ih (n / 10) (by omega)]
      omega

/-- The decimal digits written for a length denote that length. -/
theorem number_of_digits_fmt_decimal (n : Nat) : number_of_digits (fmt_decimal n) = n :=
  number_of_digits_decimal_digits (n + 1) n (Nat.lt_succ_self n)

theorem fmt_decimal_no_nul (n : Nat) : 0 ∉ fmt_decimal n := by
  intro h
  have := decimal_digits_mem _ _ _ h
  omega

theorem text_plain_response_no_nul (body : List Nat) (h : 0 ∉ body) :
    0 ∉ text_plain_response body := by
  have hn1 : 0 ∉ ascii "HTTP/1.1 200 OK\r\n" := by decide
  have hn2 : 0 ∉ ascii "Content-Type: text/plain\r\n" := by decide
  have hn3 : 0 ∉ ascii "Content-Length: " := by decide
  have hn4 : 0 ∉ ascii "\r\n\r\n" := by decide
  unfold text_plain_response
  simp only [List.mem_append, not_or]
  exact ⟨⟨⟨⟨⟨hn1, hn2⟩, hn3⟩, fmt_decimal_no_nul _⟩, hn4⟩, h⟩

theorem text_plain_response_length (body : List Nat) :
    (text_plain_response body).length = 63 + (fmt_decimal body.length).length + body.length := by
  have h1 : (ascii "HTTP/1.1 200 OK\r\n").length = 17 := by decide
  have h2 : (ascii "Content-Type: text/plain\r\n").length = 26 := by decide
  have h3 : (ascii "Content-Length: ").length = 16 := by decide
  have h4 : (ascii "\r\n\r\n").length = 4 := by decide
  unfold text_plain_response
  simp only [List.length_append, h1, h2, h3, h4]
  omega

/-- A view without a NUL: what is sent of the `text/plain` response formatted
into `char response[4096]` is its first 4095 bytes. -/
theorem text_plain_sent_take (sv : string_view) (hbl : sv.bytes.length = sv.size)
    (hnul : 0 ∉ sv.bytes) :
    c_str (c_snprintf 4096
      (ascii "HTTP/1.1 200 OK\r\n" ++ ascii "Content-Type: text/plain\r\n" ++
        ascii "Content-Length: " ++ fmt_decimal sv.size ++ ascii "\r\n\r\n" ++ fmt_sv sv)) =
      (text_plain_response sv.bytes).take 4095 := by
  have hfmt : fmt_sv sv = sv.bytes := c_str_of_no_nul _ hnul
  rw [hfmt, ← hbl]
  show c_str ((text_plain_response sv.bytes).take 4095) = _
  apply c_str_of_no_nul
  intro h
  exact text_plain_response_no_nul _ hnul (List.mem_of_mem_take h)

/-- A view without a NUL and of at most 4028 bytes: the `text/plain` response
is stored and sent whole. -/
theorem text_plain_sent (sv : string_view) (hbl : sv.bytes.length = sv.size)
    (hnul : 0 ∉ sv.bytes) (hlen : sv.size ≤ 4028) :
    c_str (c_snprintf 4096
      (ascii "HTTP/1.1 200 OK\r\n" ++ ascii "Content-Type: text/plain\r\n" ++
        ascii "Content-Length: " ++ fmt_decimal sv.size ++ ascii "\r\n\r\n" ++ fmt_sv sv)) =
      text_plain_response sv.bytes := by
  have hdl : (fmt_decimal sv.bytes.length).length ≤ 4 :=
    decimal_digits_length_le _ _ 4 (by omega) (by norm_num; omega)
  rw [text_plain_sent_take sv hbl hnul, List.take_of_length_le]
  rw [text_plain_response_length]
  omega

/-! ## handle_echo -/

/-- Chopping a literal prefix that is there, ignoring case: the receiver is
left on the bytes after it. -/
theorem sv_chop_prefix_lit (sv : string_view) (hin : sv.InBuf) (lit : List Nat)
    (h : (sv.bytes.take lit.length).map ascii_lower = lit.map ascii_lower) :
    ( sv_chop_prefix sv (SV_LITERAL lit)).2 = ⟨sv.data.add lit.length, sv.size - lit.length⟩ ∧
    string_view.bytes ⟨sv.data.add lit.length, sv.size - lit.length⟩ =
      sv.bytes.drop lit.length ∧
    string_view.InBuf ⟨sv.data.add lit.length, sv.size - lit.length⟩ ∧
    lit.length ≤ sv.size := by
  have hp : sv_has_prefix sv (SV_LITERAL lit) true = true := by
    rw [sv_has_prefix_lit sv hin lit, decide_eq_true_iff]
    exact h
  have hle : lit.length ≤ sv.size := by
    have := congrArg List.length h
    simp only [List.length_map, List.length_take, bytes_length sv hin] at this
    omega
  refine ⟨?_, ?_, ?_, hle⟩
  · unfold sv_chop_prefix
    simp only [hp, Bool.not_true, Bool.false_eq_true, if_false, sv_chop, sv_create,
      (SV_LITERAL_bytes lit).2.2, show ¬ sv.size < lit.length by omega]
  · simp only [string_view.bytes, Ptr.add, List.drop_take, List.drop_drop]
  · unfold string_view.InBuf at *
    simp only [Ptr.add]
    omega

/-- C12 (the claim fails): the path `/echo/a`, NUL, `b` has the three bytes
`a`, NUL, `b` after the prefix; the response announces `Content-Length: 3` and
its body is the one byte `a`, because `%.*s` and `strlen` stop at the NUL; the
same when the request comes in through `handle_client`. -/
theorem echo_body_stops_at_nul :
    (handle_echo (connection []) (view (ascii "/echo/a" ++ 0 :: ascii "b"))).sent =
      ascii "HTTP/1.1 200 OK\r\nContent-Type: text/plain\r\nContent-Length: 3\r\n\r\na" ∧
    (handle_client (connection (ascii "GET /echo/a" ++ 0 :: ascii "b HTTP/1.1\r\n\r\n"))
      []).returned.map (fun w => w.sent) =
      some (ascii "HTTP/1.1 200 OK\r\nContent-Type: text/plain\r\nContent-Length: 3\r\n\r\na") := by
  decide

/-- C12 (amended): for a path that is `/echo/` followed by bytes `T` without a
NUL and of at most 4028 bytes (so that the response fits `char
response[4096]`), what `handle_echo` sends is exactly the status line `HTTP/1.1
200 OK`, the headers `Content-Type: text/plain` and `Content-Length` with the
decimal digits of the length of `T`, an empty line and `T`; the digits denote
the number of body bytes sent. -/
theorem handle_echo_response (w : world) (path : string_view) (T : List Nat)
    (hin : path.InBuf) (hb : path.bytes = ascii "/echo/" ++ T) (hnul : 0 ∉ T)
    (hlen : T.length ≤ 4028) :
    handle_echo w path = send w (text_plain_response T) ∧
    text_plain_response T =
      ascii "HTTP/1.1 200 OK\r\nContent-Type: text/plain\r\nContent-Length: " ++
        fmt_decimal T.length ++ ascii "\r\n\r\n" ++ T ∧
    number_of_digits (fmt_decimal T.length) = T.length := by
  have h6 : (ascii "/echo/").length = 6 := by decide
  have hpre : (path.bytes.take (ascii "/echo/").length).map ascii_lower =
      (ascii "/echo/").map ascii_lower := by
    rw [hb, List.take_left]
  obtain ⟨hchop, hbytes, hin2, hle⟩ := sv_chop_prefix_lit path hin (ascii "/echo/") hpre
  have hT : string_view.bytes ⟨path.data.add (ascii "/echo/").length,
      path.size - (ascii "/echo/").length⟩ = T := by
    rw [hbytes, hb, List.drop_left]
  have hsz : path.size - (ascii "/echo/").length = T.length := by
    have := bytes_length _ hin2
    rw [hT] at this
    exact this.symm
  refine ⟨?_, ?_, number_of_digits_fmt_decimal _⟩
  · unfold handle_echo
    simp only [hchop]
    rw [text_plain_sent _ (bytes_length _ hin2) (by rw [hT]; exact hnul)
      (by dsimp only; omega), hT]
  · unfold text_plain_response
    have : ascii "HTTP/1.1 200 OK\r\nContent-Type: text/plain\r\nContent-Length: " =
        ascii "HTTP/1.1 200 OK\r\n" ++ ascii "Content-Type: text/plain\r\n" ++
          ascii "Content-Length: " := by decide
    rw [this]

/-- C12 (amended), at a concrete input: `/echo/hello` gives `Content-Length: 5`
and the body `hello`. -/
theorem handle_echo_response_witness :
    handle_echo (connection []) (view (ascii "/echo/hello")) =
      send (connection [])
        (ascii "HTTP/1.1 200 OK\r\nContent-Type: text/plain\r\nContent-Length: 5\r\n\r\nhello") :=
  (handle_echo_response (connection []) (view (ascii "/echo/hello")) (ascii "hello")
    (by decide) (by decide) (by decide) (by decide)).1.trans (by decide)

/-! ## The user agent parse_headers produces and handle_user_agent -/

theorem user_agent_from_nil (ua : List Nat) : user_agent_from ua [] = ua := rfl

theorem user_agent_from_cons (ua l : List Nat) (ls : List (List Nat)) :
    user_agent_from ua (l :: ls) =
      user_agent_from (if has_name "User-Agent" l then header_value l else ua) ls := by
  unfold user_agent_from
  by_cases hn : has_name "User-Agent" l = true
  · rw [List.filter_cons_of_pos hn]
    cases hf : ls.filter (has_name "User-Agent") with
    | nil => simp [hn]
    | cons x xs =>
      have h1 : (x :: xs).getLast? = some ((x :: xs).getLast (by simp)) :=
        List.getLast?_eq_getLast _ _
      simp [hn, List.getLast?_cons_cons, h1]
  · rw [List.filter_cons_of_neg hn]
    simp [hn]

theorem after_header_line_user_agent (st : headers_state) (request : string_view)
    (D : Ptr) (k : Nat) (line after : List Nat)
    (hc : (D.add k).cstr = header_value line ++ after)
    (hst : st.user_agent.bytes.length = st.user_agent.size) :
    (after_header_line st request ⟨D.add k, (header_value line).length⟩ line
        (header_value line ++ after)).user_agent.bytes =
      (if has_name "User-Agent" line then header_value line else st.user_agent.bytes) ∧
    (after_header_line st request ⟨D.add k, (header_value line).length⟩ line
        (header_value line ++ after)).user_agent.bytes.length =
      (after_header_line st request ⟨D.add k, (header_value line).length⟩ line
        (header_value line ++ after)).user_agent.size := by
  have hb : string_view.bytes ⟨D.add k, (header_value line).length⟩ = header_value line :=
    bytes_of_cstr_zero _ _ _ hc
  unfold after_header_line
  by_cases hua : has_name "User-Agent" line = true
  · simp only [hua, if_true, hb]
    trivial
  · by_cases hcl : has_name "Content-Length" line = true
    · simp only [hua, hcl, if_true, if_false, Bool.false_eq_true]
      exact ⟨trivial, hst⟩
    · simp only [hua, hcl, if_false, Bool.false_eq_true]
      exact ⟨trivial, hst⟩

theorem header_value_cstr (D : Ptr) (l cr t : List Nat) (hc : D.cstr = l ++ t)
    (hcr : l = strip_cr l ++ cr) :
    (D.add ((strip_cr l).length - (header_value (strip_cr l)).length)).cstr =
      header_value (strip_cr l) ++ (cr ++ t) := by
  have hc1 : D.cstr = strip_cr l ++ (cr ++ t) := by
    rw [hc]
    conv_lhs => rw [hcr]
    simp
  exact (header_split_eq D (strip_cr l) (cr ++ t) hc1).2.1

/-- The loop of `parse_headers` on a view of the block `hb`: it returns with the
user agent view on the value of the last `User-Agent` line of `hb`. -/
theorem parse_headers_loop_user_agent :
    ∀ (fuel : Nat) (st : headers_state) (hb tl : List Nat),
      st.request.data.cstr = hb ++ tl → st.request.size = hb.length → hb.length < fuel →
      st.user_agent.bytes.length = st.user_agent.size →
      ∃ st', parse_headers_loop fuel st = some st' ∧
        st'.user_agent.bytes = user_agent_from st.user_agent.bytes (header_lines hb) ∧
        st'.user_agent.bytes.length = st'.user_agent.size := by
  intro fuel
  induction fuel with
  | zero => intro st hb tl _ _ h; omega
  | succ fuel ih =>
    intro st hb tl hc hsz hfuel hua
    have hnil : header_lines [] = [] := by
      rw [header_lines_of_not_mem [] (by simp)]
      simp [strip_cr]
    by_cases hs : st.request.size > 0
    · obtain ⟨cr, hcr, hcr2⟩ := strip_cr_append (hb.takeWhile (· ≠ 10))
      by_cases h10 : 10 ∈ hb
      · obtain ⟨l, t, hlt, hl⟩ := exists_first_split 10 hb h10
        have hlen : hb.length = l.length + 1 + t.length := by rw [hlt]; simp; omega
        have hc1 : st.request.data.cstr = l ++ 10 :: (t ++ tl) := by
          rw [hc, hlt]; simp
        have hchop := sv_chop_char_found st.request 10 l _ hc1 hl (by omega)
        have htw : hb.takeWhile (· ≠ 10) = l := by
          rw [hlt]; exact (takeWhile_ne_append 10 l t hl).1
        rw [htw] at hcr
        rw [parse_headers_loop_step fuel st l cr _ _ hs hc1 hcr hchop]
        have hhl := header_lines_append l t hl
        rw [← hlt] at hhl
        have hc2 : (st.request.data.add (l.length + 1)).cstr = t ++ tl := by
          have : st.request.data.cstr = (l ++ [10]) ++ (t ++ tl) := by rw [hc1]; simp
          simpa using cstr_add_of_append _ _ _ this
        by_cases hbl : strip_cr l = []
        · simp only [(is_blank_iff l).mpr hbl, if_true]
          refine ⟨_, rfl, ?_, hua⟩
          rw [hhl, if_pos hbl]
          rfl
        · have hbl' : ¬ (is_blank l = true) := fun h => hbl ((is_blank_iff l).mp h)
          simp only [hbl', if_false, Bool.false_eq_true]
          rw [if_neg hbl] at hhl
          have hvc := header_value_cstr st.request.data l cr _ hc1 hcr
          obtain ⟨hu1, hu2⟩ := after_header_line_user_agent st
            ⟨st.request.data.add (l.length + 1), st.request.size - (l.length + 1)⟩
            st.request.data _ (strip_cr l) _ hvc hua
          obtain ⟨st', hst', hb1, hb2⟩ := ih _ t tl
            (by rw [after_header_line_request]; exact hc2)
            (by rw [after_header_line_request]; dsimp only; omega)
            (by omega) hu2
          refine ⟨st', hst', ?_, hb2⟩
          rw [hb1, hhl, user_agent_from_cons, hu1]
      · have hchop := sv_chop_char_absent st.request 10 hb tl hc h10 hsz.symm
        have htw : hb.takeWhile (· ≠ 10) = hb := (takeWhile_ne_of_not_mem 10 hb h10).1
        rw [htw] at hcr
        rw [hsz] at hchop
        rw [parse_headers_loop_step fuel st hb cr _ _ hs hc hcr hchop]
        have hhl := header_lines_of_not_mem hb h10
        have hc2 : (st.request.data.add hb.length).cstr = [] ++ tl := by
          simpa using cstr_add_of_append _ _ _ hc
        by_cases hbl : strip_cr hb = []
        · simp only [(is_blank_iff hb).mpr hbl, if_true]
          refine ⟨_, rfl, ?_, hua⟩
          rw [hhl, if_pos hbl]
          rfl
        · have hbl' : ¬ (is_blank hb = true) := fun h => hbl ((is_blank_iff hb).mp h)
          simp only [hbl', if_false, Bool.false_eq_true]
          rw [if_neg hbl] at hhl
          have hvc := header_value_cstr st.request.data hb cr _ hc hcr
          obtain ⟨hu1, hu2⟩ := after_header_line_user_agent st
            ⟨st.request.data.add hb.length, 0⟩
            st.request.data _ (strip_cr hb) _ hvc hua
          obtain ⟨st', hst', hb1, hb2⟩ := ih _ [] tl
            (by rw [after_header_line_request]; exact hc2)
            (by rw [after_header_line_request]; rfl)
            (by simp only [List.length_nil]; omega) hu2
          refine ⟨st', hst', ?_, hb2⟩
          rw [hb1, hhl, hnil, user_agent_from_nil, user_agent_from_cons, user_agent_from_nil,
            hu1]
    · have h0 : hb = [] := List.length_eq_zero.mp (by omega)
      subst h0
      rw [parse_headers_loop]
      simp only [hs, if_false]
      refine ⟨st, rfl, ?_, hua⟩
      rw [hnil, user_agent_from_nil]

/-- The name and the value of a header line written as name, colon, one space,
value. -/
theorem header_line_parts (name V : List Nat) (h : 58 ∉ name) :
    header_key (name ++ 58 :: 32 :: V) = name ∧ header_value (name ++ 58 :: 32 :: V) = V := by
  obtain ⟨h1, h2⟩ := takeWhile_ne_append 58 name (32 :: V) h
  exact ⟨h1, by rw [header_value, h2]; rfl⟩

/-- C13 (the claim fails): with the header line `User-Agent: x`, NUL, `y` the
value has three bytes, and the response announces `Content-Length: 3` with the
one-byte body `x`; with the two header lines `User-Agent: a` and `User-Agent: b`
the body is `b`, not `a`. -/
theorem user_agent_body_differs :
    (handle_client
      (connection (ascii "GET /user-agent HTTP/1.1\r\nUser-Agent: x" ++ 0 :: ascii "y\r\n\r\n"))
      []).returned.map (fun w => w.sent) =
      some (ascii "HTTP/1.1 200 OK\r\nContent-Type: text/plain\r\nContent-Length: 3\r\n\r\nx") ∧
    (handle_client
      (connection (ascii "GET /user-agent HTTP/1.1\r\nUser-Agent: a\r\nUser-Agent: b\r\n\r\n"))
      []).returned.map (fun w => w.sent) =
      some (ascii "HTTP/1.1 200 OK\r\nContent-Type: text/plain\r\nContent-Length: 1\r\n\r\nb") := by
  decide

/-- C13 (amended): for a header block, `parse_headers` returns with the user
agent view on the value of the last `User-Agent` line (name compared ignoring
ASCII case, one space after the colon stripped).  If there is no such line,
`handle_user_agent` sends the 200 `text/plain` response with `Content-Length: 0`
and no body; if the value `V` of the last such line has no NUL and at most 4028
bytes, it sends the 200 `text/plain` response whose body is exactly `V` and
whose `Content-Length` is the length of `V`. -/
theorem user_agent_response (w : world) (request : string_view) (block tl : List Nat)
    (hc : request.data.cstr = block ++ tl) (hsz : request.size = block.length) :
    ∃ st, parse_headers request = some st ∧
      st.user_agent.bytes = announced_user_agent (header_lines block) ∧
      (((header_lines block).filter (has_name "User-Agent")).getLast? = none →
        handle_user_agent w st.user_agent =
          send w (ascii
            "HTTP/1.1 200 OK\r\nContent-Type: text/plain\r\nContent-Length: 0\r\n\r\n")) ∧
      (∀ V, (((header_lines block).filter (has_name "User-Agent")).getLast?).map header_value =
          some V → 0 ∉ V → V.length ≤ 4028 →
        handle_user_agent w st.user_agent = send w (text_plain_response V) ∧
        number_of_digits (fmt_decimal V.length) = V.length) := by
  have hempty : (SV_LITERAL (ascii "")).bytes = [] := by decide
  have hlit : (SV_LITERAL (ascii "")).bytes.length = (SV_LITERAL (ascii "")).size := by decide
  obtain ⟨st, hst, hb1, hb2⟩ := parse_headers_loop_user_agent (request.size + 1)
    ⟨request, SV_LITERAL (ascii ""), 0⟩ block tl hc hsz (by omega) hlit
  have hann : st.user_agent.bytes = announced_user_agent (header_lines block) := by
    rw [hb1]
    unfold user_agent_from announced_user_agent
    dsimp only
    rw [hempty]
  refine ⟨st, hst, hann, ?_, ?_⟩
  · intro hnone
    have hb : st.user_agent.bytes = [] := by
      rw [hann]
      unfold announced_user_agent
      rw [hnone]
    have hz : st.user_agent.size = 0 := by rw [← hb2, hb]; rfl
    unfold handle_user_agent
    simp only []
    rw [text_plain_sent _ hb2 (by rw [hb]; simp) (by omega), hb]
    congr 1
  · intro V hV hnul hlen
    have hb : st.user_agent.bytes = V := by
      rw [hann]
      unfold announced_user_agent
      cases hl : ((header_lines block).filter (has_name "User-Agent")).getLast? with
      | none => rw [hl] at hV; cases hV
      | some l =>
        rw [hl] at hV
        simp only [Option.map_some', Option.some.injEq] at hV
        exact hV
    have hz : st.user_agent.size = V.length := by rw [← hb2, hb]
    refine ⟨?_, number_of_digits_fmt_decimal _⟩
    unfold handle_user_agent
    simp only []
    rw [text_plain_sent _ hb2 (by rw [hb]; exact hnul) (by omega), hb]

/-- C13 (amended), at a concrete input: the header `User-Agent: test-client/1.0`
gives the body `test-client/1.0` with `Content-Length: 15`. -/
theorem user_agent_response_witness :
    ∃ st, parse_headers
        ⟨recv_buffer (ascii "User-Agent: test-client/1.0\r\n\r\n") [], 31⟩ = some st ∧
      handle_user_agent (connection []) st.user_agent =
        send (connection []) (ascii
          "HTTP/1.1 200 OK\r\nContent-Type: text/plain\r\nContent-Length: 15\r\n\r\ntest-client/1.0") := by
  obtain ⟨st, h1, _, _, h3⟩ := user_agent_response (connection [])
    ⟨recv_buffer (ascii "User-Agent: test-client/1.0\r\n\r\n") [], 31⟩
    (ascii "User-Agent: test-client/1.0\r\n\r\n") [0] (by decide) (by decide)
  exact ⟨st, h1, (h3 (ascii "test-client/1.0") (by decide) (by decide) (by decide)).1.trans
    (by decide)⟩

/-! ## handle_image_page -/

set_option maxRecDepth 100000 in
/-- C19 (evaluation): the response of `handle_image_page` is the status line
`HTTP/1.1 200 OK`, `Content-Type: text/html`, `Content-Length: 227`, an empty
line and the HTML page, which has 164 bytes.  The 227 is `strlen(html_template)
- 2` = 229 - 2: it counts the 65 bytes of the status line and the headers of the
template and one of the three bytes of `%zu`. -/
theorem image_page_content_length_counts_header :
    (handle_image_page (connection [])).sent =
      ascii "HTTP/1.1 200 OK\r\nContent-Type: text/html\r\nContent-Length: 227\r\n\r\n" ++
        image_page_body ∧
    image_page_body.length = 164 ∧
    after_blank_line (handle_image_page (connection [])).sent = image_page_body ∧
    html_template.length = 229 := by
  decide

/-! ## serve_file and the two 404 responses -/

theorem send_nil (w : world) : send w [] = w := by
  simp [send]

theorem send_send (w : world) (a b : List Nat) : send (send w a) b = send w (a ++ b) := by
  simp [send, List.append_assoc]

/-- The loop of `serve_file` sends the unread part of the file and returns. -/
theorem serve_file_loop_returns :
    ∀ (fuel : Nat) (unread : List Nat) (w : world), unread.length < fuel →
      serve_file_loop fuel unread w = Outcome.ret (send w unread) := by
  intro fuel
  induction fuel with
  | zero => intro unread w h; omega
  | succ fuel ih =>
    intro unread w h
    unfold serve_file_loop
    by_cases hpos : (unread.take BUFFER_SIZE).length > 0
    · simp only [hpos, if_true]
      have hlen : (unread.drop BUFFER_SIZE).length < fuel := by
        simp only [List.length_take, BUFFER_SIZE] at hpos
        simp only [List.length_drop, BUFFER_SIZE]
        omega
      rw [ih _ _ hlen, send_send, List.take_append_drop]
    · simp only [hpos, if_false]
      have : unread = [] := by
        simp only [List.length_take, BUFFER_SIZE] at hpos
        exact List.length_eq_zero.mp (by omega)
      rw [this, send_nil]

/-- A file that cannot be opened: `serve_file` answers with `send_404`. -/
theorem serve_file_missing (w : world) (file_path : List Nat)
    (h : file_contents w file_path = none) :
    serve_file w file_path = Outcome.ret (send_404 (log_fopen w file_path)) := by
  unfold serve_file
  have h2 : file_contents (log_fopen w file_path) file_path = none := h
  simp only [h2]

theorem handle_route_not_found (w : world) (r : http_request)
    (h : dispatch r.path = route_target.not_found) :
    handle_route w r = Outcome.ret (send_404 w) := by
  unfold handle_route
  rw [h]

/-- C17 (the claim fails): the response to `GET /files/missing.txt`, a file that
cannot be opened, is byte for byte the response to `GET /nonexistent`; it has
the HTML body of `send_404` after the empty line. -/
theorem missing_file_404_has_html_body :
    (handle_client (connection (ascii "GET /files/missing.txt HTTP/1.1\r\n\r\n"))
      []).returned.map (fun w => w.sent) =
      (handle_client (connection (ascii "GET /nonexistent HTTP/1.1\r\n\r\n"))
        []).returned.map (fun w => w.sent) ∧
    (handle_client (connection (ascii "GET /files/missing.txt HTTP/1.1\r\n\r\n"))
      []).returned.map (fun w => after_blank_line w.sent) =
      some (ascii "<html><body><h1>NOT FOUND 404</h1></body></html>") := by
  decide

/-- C17 (amended): the two 404 responses are the same: for a path that matches
no route and for a `GET /files/<name>` whose file cannot be opened, what is sent
is the response of `send_404`, the status line `HTTP/1.1 404 Not Found`, an
empty line and the HTML body `<html><body><h1>NOT FOUND 404</h1></body></html>`. -/
theorem not_found_responses_agree (w : world) (r : http_request) (file_path : List Nat)
    (hroute : dispatch r.path = route_target.not_found)
    (hfile : file_contents w file_path = none) :
    (∃ w1, handle_route w r = Outcome.ret w1 ∧ w1.sent = w.sent ++ response_404) ∧
    (∃ w2, serve_file w file_path = Outcome.ret w2 ∧ w2.sent = w.sent ++ response_404) ∧
    after_blank_line response_404 = ascii "<html><body><h1>NOT FOUND 404</h1></body></html>" := by
  have hc : c_str response_404 = response_404 := by decide
  refine ⟨⟨_, handle_route_not_found w r hroute, ?_⟩,
    ⟨_, serve_file_missing w file_path hfile, ?_⟩, by decide⟩
  · simp only [send_404, send, hc]
  · simp only [send_404, send, log_fopen, hc]

/-- C17 (amended), at a concrete input: the path `/nonexistent` and the file
`./files/missing.txt` of an empty file store. -/
theorem not_found_responses_agree_witness :
    (∃ w1, handle_route (connection [])
        ⟨view (ascii "GET"), view (ascii "/nonexistent"), view (ascii "HTTP/1.1"),
          view [], 0, view []⟩ = Outcome.ret w1 ∧
      w1.sent = (connection []).sent ++ response_404) ∧
    (∃ w2, serve_file (connection []) (ascii "./files/missing.txt") = Outcome.ret w2 ∧
      w2.sent = (connection []).sent ++ response_404) :=
  ⟨(not_found_responses_agree (connection [])
      ⟨view (ascii "GET"), view (ascii "/nonexistent"), view (ascii "HTTP/1.1"),
        view [], 0, view []⟩ (ascii "./files/missing.txt") (by decide) (by decide)).1,
   (not_found_responses_agree (connection [])
      ⟨view (ascii "GET"), view (ascii "/nonexistent"), view (ascii "HTTP/1.1"),
        view [], 0, view []⟩ (ascii "./files/missing.txt") (by decide) (by decide)).2.1⟩

/-! ## post_file -/

theorem file_contents_write_file (w : world) (name contents : List Nat) :
    file_contents (write_file w name contents) name = some contents := by
  simp [file_contents, write_file, List.lookup]

theorem post_file_loop_done (file_path : List Nat) (content_length : Nat)
    (incoming : List recv_result) (w : world) (written : List Nat) (bytes_written : Nat)
    (h : ¬ bytes_written < content_length) :
    post_file_loop file_path content_length incoming w written bytes_written =
      Outcome.ret (send_201 { w with incoming := incoming }) := by
  cases incoming with
  | nil => simp only [post_file_loop, h, if_false]
  | cons r rest => simp only [post_file_loop, h, if_false]

/-- The loop of `post_file` when the chunks received complete the upload: it
returns after `send_201`, the file holds what was written before followed by the
chunks, and the results of `recv` after the chunks are left. -/
theorem post_file_loop_complete (file_path : List Nat) (content_length : Nat) :
    ∀ (chunks : List (List Nat)) (rest : List recv_result) (w : world) (written : List Nat)
      (bytes_written : Nat),
      (∀ c ∈ chunks, c ≠ []) → bytes_written + chunks.flatten.length = content_length →
      file_contents w file_path = some written →
      ∃ w1, post_file_loop file_path content_length (chunks.map recv_result.data ++ rest) w
          written bytes_written = Outcome.ret w1 ∧
        w1.sent = w.sent ++ response_201 ∧ w1.incoming = rest ∧ w1.closes = w.closes ∧
        w1.fopens = w.fopens ∧ file_contents w1 file_path = some (written ++ chunks.flatten) := by
  intro chunks
  induction chunks with
  | nil =>
    intro rest w written bw _ hsum hfile
    simp only [List.flatten_nil, List.length_nil, Nat.add_zero] at hsum
    rw [List.map_nil, List.nil_append, post_file_loop_done _ _ _ _ _ _ (by omega)]
    refine ⟨_, rfl, ?_, rfl, rfl, rfl, ?_⟩
    · have hc : c_str response_201 = response_201 := by decide
      simp only [send_201, send, hc]
    · simpa [file_contents, send_201, send] using hfile
  | cons c chunks ih =>
    intro rest w written bw hne hsum hfile
    have hc : c ≠ [] := hne c (List.mem_cons_self _ _)
    have hpos : 0 < c.length := List.length_pos.mpr hc
    simp only [List.flatten_cons, List.length_append] at hsum
    have hlt : bw < content_length := by omega
    have hread : ¬ (recv_result.data c).bytes_read ≤ 0 := by
      simp only [recv_result.bytes_read]
      omega
    simp only [List.map_cons, List.cons_append, post_file_loop, hlt, if_true, hread, if_false,
      recv_result.stored]
    obtain ⟨w1, h1, h2, h3, h4, h5, h6⟩ := ih rest
      (write_file w file_path (written ++ c)) (written ++ c) (bw + c.length)
      (fun x hx => hne x (List.mem_cons_of_mem _ hx)) (by omega)
      (file_contents_write_file _ _ _)
    refine ⟨w1, h1, h2, h3, h4, h5, ?_⟩
    rw [h6, List.flatten_cons, List.append_assoc]

/-- The loop of `post_file` when a call of `recv` returns 0 or an error before
the upload is complete: it returns after `send_400` and `close`, and the file
holds what was written before followed by the chunks received until then. -/
theorem post_file_loop_abort (file_path : List Nat) (content_length : Nat) :
    ∀ (chunks : List (List Nat)) (bad : recv_result) (rest : List recv_result) (w : world)
      (written : List Nat) (bytes_written : Nat),
      (∀ c ∈ chunks, c ≠ []) → bad.bytes_read ≤ 0 →
      bytes_written + chunks.flatten.length < content_length →
      file_contents w file_path = some written →
      ∃ w1, post_file_loop file_path content_length
          (chunks.map recv_result.data ++ bad :: rest) w written bytes_written = Outcome.ret w1 ∧
        w1.sent = w.sent ++ response_400 ∧ w1.incoming = rest ∧ w1.closes = w.closes + 1 ∧
        w1.fopens = w.fopens ∧ file_contents w1 file_path = some (written ++ chunks.flatten) := by
  intro chunks
  induction chunks with
  | nil =>
    intro bad rest w written bw _ hbad hsum hfile
    simp only [List.flatten_nil, List.length_nil, Nat.add_zero] at hsum
    simp only [List.map_nil, List.nil_append, post_file_loop, hsum, if_true, hbad]
    refine ⟨_, rfl, ?_, rfl, rfl, rfl, ?_⟩
    · have hc : c_str response_400 = response_400 := by decide
      simp only [close_fd, send_400, send, hc]
    · simpa [file_contents, close_fd, send_400, send] using hfile
  | cons c chunks ih =>
    intro bad rest w written bw hne hbad hsum hfile
    have hc : c ≠ [] := hne c (List.mem_cons_self _ _)
    have hpos : 0 < c.length := List.length_pos.mpr hc
    simp only [List.flatten_cons, List.length_append] at hsum
    have hlt : bw < content_length := by omega
    have hread : ¬ (recv_result.data c).bytes_read ≤ 0 := by
      simp only [recv_result.bytes_read]
      omega
    simp only [List.map_cons, List.cons_append, post_file_loop, hlt, if_true, hread, if_false,
      recv_result.stored]
    obtain ⟨w1, h1, h2, h3, h4, h5, h6⟩ := ih bad rest
      (write_file w file_path (written ++ c)) (written ++ c) (bw + c.length)
      (fun x hx => hne x (List.mem_cons_of_mem _ hx)) hbad (by omega)
      (file_contents_write_file _ _ _)
    refine ⟨w1, h1, h2, h3, h4, h5, ?_⟩
    rw [h6, List.flatten_cons, List.append_assoc]

/-- What `post_file` starts its loop with: the file created or emptied and the
buffered body written. -/
theorem post_file_start (w : world) (file_path : List Nat) (body : string_view)
    (content_length : Nat) (hrw : file_path ∉ w.readonly) (hbody : body.InBuf) :
    ∃ w0, post_file w file_path body content_length =
        post_file_loop file_path content_length w.incoming w0 body.bytes body.size ∧
      w0.sent = w.sent ∧ w0.closes = w.closes ∧ w0.fopens = w.fopens ++ [file_path] ∧
      file_contents w0 file_path = some body.bytes := by
  have hlen := bytes_length body hbody
  unfold post_file
  have hrw2 : file_path ∉ (log_fopen w file_path).readonly := hrw
  simp only [hrw2, if_false]
  by_cases hs : body.size > 0
  · simp only [hs, if_true]
    exact ⟨_, rfl, rfl, rfl, rfl, file_contents_write_file _ _ _⟩
  · simp only [hs, if_false]
    have hz : body.size = 0 := by omega
    have hb : body.bytes = [] := List.length_eq_zero.mp (by omega)
    rw [hb, hz]
    exact ⟨_, rfl, rfl, rfl, rfl, file_contents_write_file _ _ _⟩

/-- C16: for an upload in which the file can be opened, the body view lies in
its buffer, the calls of `recv` return the non-empty `chunks` and then 0 or an
error (`bad`), while the body and the chunks together are fewer than
`content_length` bytes: `post_file` returns having sent exactly the 400
response (not 201) and closed the connection, and the file holds exactly the
body followed by the chunks, strictly fewer than `content_length` bytes. -/
theorem post_file_incomplete (w : world) (file_path : List Nat) (body : string_view)
    (content_length : Nat) (chunks : List (List Nat)) (bad : recv_result)
    (rest : List recv_result) (hrw : file_path ∉ w.readonly) (hbody : body.InBuf)
    (hin : w.incoming = chunks.map recv_result.data ++ bad :: rest)
    (hne : ∀ c ∈ chunks, c ≠ []) (hbad : bad.bytes_read ≤ 0)
    (hlt : body.size + chunks.flatten.length < content_length) :
    ∃ w1, post_file w file_path body content_length = Outcome.ret w1 ∧
      w1.sent = w.sent ++ ascii "HTTP/1.1 400 Bad Request\r\n\r\n" ∧
      w1.closes = w.closes + 1 ∧
      file_contents w1 file_path = some (body.bytes ++ chunks.flatten) ∧
      (body.bytes ++ chunks.flatten).length < content_length := by
  obtain ⟨w0, hstart, hs0, hc0, _, hf0⟩ :=
    post_file_start w file_path body content_length hrw hbody
  obtain ⟨w1, h1, h2, _, h4, _, h6⟩ := post_file_loop_abort file_path content_length chunks bad
    rest w0 body.bytes body.size hne hbad hlt hf0
  refine ⟨w1, ?_, ?_, ?_, h6, ?_⟩
  · rw [hstart, hin, h1]
  · rw [h2, hs0]
    rfl
  · rw [h4, hc0]
  · rw [List.length_append, bytes_length body hbody]
    exact hlt

/-- C16, at a concrete input: `Content-Length` 10, four bytes delivered with
the headers, then the peer closes: a 400 and a file of four bytes. -/
theorem post_file_incomplete_witness :
    ∃ w1, post_file ⟨[], [], [recv_result.data []], [], 0, []⟩ (ascii "./files/upload.bin")
        (view (ascii "abcd")) 10 = Outcome.ret w1 ∧
      w1.sent = [] ++ ascii "HTTP/1.1 400 Bad Request\r\n\r\n" ∧
      w1.closes = 0 + 1 ∧
      file_contents w1 (ascii "./files/upload.bin") = some ((view (ascii "abcd")).bytes ++ []) ∧
      ((view (ascii "abcd")).bytes ++ ([] : List Nat)).length < 10 :=
  post_file_incomplete ⟨[], [], [recv_result.data []], [], 0, []⟩ (ascii "./files/upload.bin")
    (view (ascii "abcd")) 10 [] (recv_result.data []) [] (by decide) (by decide) (by decide)
    (by decide) (by decide) (by decide)

/-! ## handle_file_request -/

theorem c_strstr_iff (hay needle : List Nat) : c_strstr hay needle = true ↔ needle <:+: hay := by
  unfold c_strstr
  rw [List.any_eq_true, List.infix_iff_prefix_suffix]
  constructor
  · rintro ⟨t, ht, hp⟩
    exact ⟨t, List.isPrefixOf_iff_prefix.mp hp, (List.mem_tails t hay).mp ht⟩
  · rintro ⟨t, hp, ht⟩
    exact ⟨t, (List.mem_tails t hay).mpr ht, List.isPrefixOf_iff_prefix.mpr hp⟩

theorem c_str_append_nul (l : List Nat) : c_str (l ++ [0]) = c_str l := by
  unfold c_str
  apply takeWhile_append_of_head
  intro x hx
  simp only [List.head?_cons, Option.some.injEq] at hx
  subst hx
  decide

theorem bytes_add (sv : string_view) (n : Nat) :
    string_view.bytes ⟨sv.data.add n, sv.size - n⟩ = sv.bytes.drop n := by
  simp only [string_view.bytes, Ptr.add, List.drop_take, List.drop_drop]

theorem strip_slashes_spec :
    ∀ (left : Nat) (sv : string_view), sv.InBuf → sv.size = left →
      (strip_slashes left sv).InBuf ∧
      (strip_slashes left sv).bytes = sv.bytes.dropWhile (· = 47) := by
  intro left
  induction left with
  | zero =>
    intro sv hin hsz
    have hb : sv.bytes = [] := List.length_eq_zero.mp (by rw [bytes_length sv hin, hsz])
    refine ⟨hin, ?_⟩
    show sv.bytes = _
    rw [hb]
    rfl
  | succ left ih =>
    intro sv hin hsz
    have hlen := bytes_length sv hin
    have hg := bytes_getElem? sv hin 0 (by omega)
    cases hb : sv.bytes with
    | nil => rw [hb] at hlen; simp at hlen; omega
    | cons x t =>
      rw [hb] at hg
      simp only [List.getElem?_cons_zero, Option.some.injEq] at hg
      unfold strip_slashes
      by_cases hx : x = 47
      · have hchop : (sv_chop sv 1).2 = ⟨sv.data.add 1, sv.size - 1⟩ := by
          simp only [sv_chop, show ¬ sv.size < 1 by omega, if_false]
        have hin2 : string_view.InBuf ⟨sv.data.add 1, sv.size - 1⟩ := by
          unfold string_view.InBuf at *
          simp only [Ptr.add]
          omega
        have hb2 : string_view.bytes ⟨sv.data.add 1, sv.size - 1⟩ = t := by
          rw [bytes_add, hb]; rfl
        obtain ⟨h1, h2⟩ := ih ⟨sv.data.add 1, sv.size - 1⟩ hin2 (by dsimp only; omega)
        simp only [← hg, hx, if_true, hchop]
        refine ⟨h1, ?_⟩
        rw [h2, hb2]
        simp [List.dropWhile_cons]
      · simp only [← hg, hx, if_false]
        refine ⟨hin, ?_⟩
        rw [hb]
        simp [List.dropWhile_cons, hx]

theorem sv_chop_snd_size_le (sv : string_view) (n : Nat) : (sv_chop sv n).2.size ≤ sv.size := by
  by_cases h : sv.size < n
  · simp only [sv_chop, h, if_true]
    omega
  · simp only [sv_chop, h, if_false]
    omega

theorem strip_slashes_size_le :
    ∀ (left : Nat) (sv : string_view), (strip_slashes left sv).size ≤ sv.size := by
  intro left
  induction left with
  | zero => intro sv; exact le_refl _
  | succ left ih =>
    intro sv
    unfold strip_slashes
    split
    · have h1 := ih (sv_chop sv 1).2
      have h2 := sv_chop_snd_size_le sv 1
      omega
    · exact le_refl _

theorem sv_chop_prefix_size_le (sv other : string_view) :
    ( sv_chop_prefix sv other).2.size ≤ sv.size := by
  unfold sv_chop_prefix
  split
  · exact le_refl _
  · exact sv_chop_snd_size_le sv other.size

/-- The path `handle_file_request` works on is never longer than the path it
was given. -/
theorem file_request_path_size_le (path : string_view) :
    (file_request_path path).size ≤ path.size := by
  unfold file_request_path
  have h1 := sv_chop_prefix_size_le path (SV_LITERAL (ascii "/files/"))
  have h2 := strip_slashes_size_le ( sv_chop_prefix path (SV_LITERAL (ascii "/files/"))).2.size
    ( sv_chop_prefix path (SV_LITERAL (ascii "/files/"))).2
  dsimp only
  omega

/-- For a path with the prefix `/files/`, the path `handle_file_request` works
on views the bytes after the prefix and after all leading slashes. -/
theorem file_request_path_spec (path : string_view) (hin : path.InBuf)
    (hpre : sv_has_prefix path (SV_LITERAL (ascii "/files/")) true = true) :
    (file_request_path path).InBuf ∧
    (file_request_path path).bytes = (path.bytes.drop 7).dropWhile (· = 47) := by
  rw [sv_has_prefix_lit path hin, decide_eq_true_iff] at hpre
  obtain ⟨hchop, hbytes, hin2, _⟩ := sv_chop_prefix_lit path hin (ascii "/files/") hpre
  have h7 : (ascii "/files/").length = 7 := by decide
  rw [h7] at hchop hbytes hin2
  unfold file_request_path
  simp only [hchop]
  obtain ⟨h1, h2⟩ := strip_slashes_spec (path.size - 7) ⟨path.data.add 7, path.size - 7⟩ hin2 rfl
  exact ⟨h1, by rw [h2, hbytes]⟩

/-- What `handle_file_request` does once the path is known to be shorter than
the buffer `filename`. -/
theorem handle_file_request_of_short (w : world) (method path body : string_view)
    (content_length : Nat) (hshort : (file_request_path path).size < 4096) :
    handle_file_request w method path body content_length =
      if c_strstr (c_str (file_request_path path).bytes) (ascii "..") then
        Outcome.ret (close_fd (send_403 w))
      else if sv_equals method (SV_LITERAL (ascii "GET")) true then
        serve_file w (c_snprintf 4096 (ascii "./files/" ++ c_str (file_request_path path).bytes))
      else if sv_equals method (SV_LITERAL (ascii "POST")) true then
        post_file w (c_snprintf 4096 (ascii "./files/" ++ c_str (file_request_path path).bytes))
          body content_length
      else Outcome.ret (send_405 w) := by
  unfold handle_file_request
  simp only [show ¬ (file_request_path path).size ≥ 4096 by omega, if_false, c_str_append_nul]

/-- C18 (the claim fails): the method `get` is not `GET`, and the request is not
answered with 405: the methods are compared ignoring case, and `serve_file`
calls `fopen` on `./files/a`. -/
theorem lower_case_get_is_served :
    (handle_client (connection (ascii "get /files/a HTTP/1.1\r\n\r\n"))
      []).returned.map (fun w => (w.sent, w.fopens)) =
      some (response_404, [ascii "./files/a"]) := by
  decide

/-- C18 (amended): for a request whose path lies in its buffer and has the
prefix `/files/`, and whose relative path (after the prefix and all leading `/`
bytes) is shorter than 4096 bytes and has no `..` before its first NUL byte,
`handle_file_request` calls `serve_file` if the method equals `GET` ignoring
ASCII case, calls `post_file` if the method equals `POST` ignoring ASCII case,
and for every other method sends exactly the 405 response without opening any
file.  The file name passed is `./files/` followed by the relative path up to
its first NUL. -/
theorem file_request_method_dispatch (w : world) (method path body : string_view)
    (content_length : Nat) (hin : path.InBuf) (hm : method.InBuf)
    (hpre : sv_has_prefix path (SV_LITERAL (ascii "/files/")) true = true)
    (hshort : (file_request_path path).size < 4096)
    (hdots : ¬ ascii ".." <:+: c_str ((path.bytes.drop 7).dropWhile (· = 47))) :
    (method.bytes.map ascii_lower = (ascii "GET").map ascii_lower →
      handle_file_request w method path body content_length =
        serve_file w (c_snprintf 4096
          (ascii "./files/" ++ c_str ((path.bytes.drop 7).dropWhile (· = 47))))) ∧
    (method.bytes.map ascii_lower = (ascii "POST").map ascii_lower →
      handle_file_request w method path body content_length =
        post_file w (c_snprintf 4096
          (ascii "./files/" ++ c_str ((path.bytes.drop 7).dropWhile (· = 47))))
          body content_length) ∧
    (method.bytes.map ascii_lower ≠ (ascii "GET").map ascii_lower →
      method.bytes.map ascii_lower ≠ (ascii "POST").map ascii_lower →
      ∃ w1, handle_file_request w method path body content_length = Outcome.ret w1 ∧
        w1.sent = w.sent ++ ascii "HTTP/1.1 405 Method Not Allowed\r\n\r\n" ∧
        w1.fopens = w.fopens ∧ w1.files = w.files) := by
  obtain ⟨_, hb⟩ := file_request_path_spec path hin hpre
  have hfound : c_strstr (c_str ((path.bytes.drop 7).dropWhile (· = 47))) (ascii "..") =
      false := by
    rw [Bool.eq_false_iff, ne_eq, c_strstr_iff]
    exact hdots
  rw [handle_file_request_of_short w method path body content_length hshort, hb]
  simp only [hfound, Bool.false_eq_true, if_false, sv_equals_lit method hm,
    decide_eq_true_eq]
  refine ⟨?_, ?_, ?_⟩
  · intro hget
    simp only [hget, if_true]
  · intro hpost
    have hne : ¬ (ascii "POST").map ascii_lower = (ascii "GET").map ascii_lower := by
      decide
    rw [hpost, if_neg hne, if_pos rfl]
  · intro hget hpost
    simp only [hget, hpost, if_false]
    refine ⟨_, rfl, ?_, rfl, rfl⟩
    have hc : c_str response_405 = ascii "HTTP/1.1 405 Method Not Allowed\r\n\r\n" := by decide
    simp only [send_405, send, hc]

/-- C18 (amended), at a concrete input: `DELETE /files/a` is answered with
405. -/
theorem file_request_method_dispatch_witness :
    ∃ w1, handle_file_request (connection []) (view (ascii "DELETE")) (view (ascii "/files/a"))
        (view []) 0 = Outcome.ret w1 ∧
      w1.sent = (connection []).sent ++ ascii "HTTP/1.1 405 Method Not Allowed\r\n\r\n" ∧
      w1.fopens = (connection []).fopens ∧ w1.files = (connection []).files :=
  (file_request_method_dispatch (connection []) (view (ascii "DELETE")) (view (ascii "/files/a"))
    (view []) 0 (by decide) (by decide) (by decide) (by decide) (by decide)).2.2
    (by decide) (by decide)

/-! ## The path of a request is no longer than what was received -/

theorem sv_chop_char_fst_size_le (sv : string_view) (d : Nat) :
    (sv_chop_char sv d).1.size ≤ sv.size := by
  have hb := sv_chop_char_loop_le sv.data d sv.size 0
  rw [sv_chop_char_fst_size]
  omega

theorem sv_chop_char_snd_size_le (sv : string_view) (d : Nat) :
    (sv_chop_char sv d).2.size ≤ sv.size := by
  unfold sv_chop_char
  by_cases hlt : sv_chop_char_loop sv.data d sv.size 0 < sv.size
  · simp only [hlt, if_true]
    omega
  · simp only [hlt, if_false]
    omega

theorem parse_request_line_path_size_le (request : string_view) (rl : request_line)
    (h : parse_request_line request = some rl) : rl.path.size ≤ request.size := by
  unfold parse_request_line at h
  by_cases h0 : (sv_chop_char request 10).1.size = 0
  · simp only [h0, if_true] at h
    exact absurd h (by simp)
  · simp only [h0, if_false, Option.some.injEq] at h
    subst h
    have h1 := sv_chop_char_fst_size_le request 10
    have h2 := sv_chop_char_snd_size_le (sv_chop_char request 10).1 32
    have h3 := sv_chop_char_fst_size_le (sv_chop_char (sv_chop_char request 10).1 32).2 32
    dsimp only
    omega

theorem parse_http_request_path_size_le (raw_request : Ptr) (raw_request_len : Nat)
    (r : http_request) (h : parse_http_request raw_request raw_request_len = Outcome.ret r) :
    r.path.size ≤ raw_request_len := by
  unfold parse_http_request at h
  cases hrl : parse_request_line (sv_create raw_request raw_request_len) with
  | none =>
    simp only [hrl] at h
    exact absurd h (by simp)
  | some rl =>
    simp only [hrl] at h
    have hp := parse_request_line_path_size_le _ rl hrl
    cases hst : parse_headers rl.request with
    | none =>
      simp only [hst] at h
      exact absurd h (by simp)
    | some st =>
      simp only [hst, Outcome.ret.injEq] at h
      subst h
      exact hp

/-- C20: when `handle_client` received `raw`, at most `BUFFER_SIZE - 1` = 4095
bytes, and `parse_http_request` returned the request `r` from its buffer: the
path is shorter than 4096 bytes, so is the relative path that
`handle_file_request` tests, so its bytes and the NUL after them fit into
`char filename[4096]`, and `handle_file_request` does not take the branch
answered with 400: it goes on with the test for `..`. -/
theorem file_request_path_fits (raw junk : List Nat) (r : http_request)
    (hlen : raw.length ≤ BUFFER_SIZE - 1)
    (hr : parse_http_request (recv_buffer raw junk) raw.length = Outcome.ret r) :
    r.path.size < 4096 ∧ (file_request_path r.path).size < 4096 ∧
    (file_request_path r.path).bytes.length + 1 ≤ 4096 ∧
    ∀ w : world, handle_file_request w r.method r.path r.body r.content_length =
      if c_strstr (c_str (file_request_path r.path).bytes) (ascii "..") then
        Outcome.ret (close_fd (send_403 w))
      else if sv_equals r.method (SV_LITERAL (ascii "GET")) true then
        serve_file w (c_snprintf 4096 (ascii "./files/" ++ c_str (file_request_path r.path).bytes))
      else if sv_equals r.method (SV_LITERAL (ascii "POST")) true then
        post_file w (c_snprintf 4096 (ascii "./files/" ++ c_str (file_request_path r.path).bytes))
          r.body r.content_length
      else Outcome.ret (send_405 w) := by
  have hp := parse_http_request_path_size_le _ _ r hr
  have hB : BUFFER_SIZE = 4096 := rfl
  have h1 : r.path.size < 4096 := by omega
  have h2 : (file_request_path r.path).size < 4096 :=
    Nat.lt_of_le_of_lt (file_request_path_size_le r.path) h1
  have h3 : (file_request_path r.path).bytes.length ≤ (file_request_path r.path).size := by
    simp only [string_view.bytes, List.length_take]
    omega
  refine ⟨h1, h2, by omega, fun w => ?_⟩
  exact handle_file_request_of_short w r.method r.path r.body r.content_length h2

/-- C20 at a concrete input: the request `GET /files/a.txt`, 29 bytes. -/
theorem file_request_path_fits_witness :
    parse_http_request (recv_buffer (ascii "GET /files/a.txt HTTP/1.1\r\n\r\n") []) 29 =
      Outcome.ret
        ⟨⟨recv_buffer (ascii "GET /files/a.txt HTTP/1.1\r\n\r\n") [], 3⟩,
          ⟨(recv_buffer (ascii "GET /files/a.txt HTTP/1.1\r\n\r\n") []).add 4, 12⟩,
          ⟨(recv_buffer (ascii "GET /files/a.txt HTTP/1.1\r\n\r\n") []).add 17, 8⟩,
          SV_LITERAL (ascii ""), 0,
          ⟨(recv_buffer (ascii "GET /files/a.txt HTTP/1.1\r\n\r\n") []).add 29, 0⟩⟩ ∧
    (12 : Nat) < 4096 ∧
    (file_request_path
      ⟨(recv_buffer (ascii "GET /files/a.txt HTTP/1.1\r\n\r\n") []).add 4, 12⟩).size < 4096 :=
  ⟨by decide,
    (file_request_path_fits (ascii "GET /files/a.txt HTTP/1.1\r\n\r\n") []
      ⟨⟨recv_buffer (ascii "GET /files/a.txt HTTP/1.1\r\n\r\n") [], 3⟩,
        ⟨(recv_buffer (ascii "GET /files/a.txt HTTP/1.1\r\n\r\n") []).add 4, 12⟩,
        ⟨(recv_buffer (ascii "GET /files/a.txt HTTP/1.1\r\n\r\n") []).add 17, 8⟩,
        SV_LITERAL (ascii ""), 0,
        ⟨(recv_buffer (ascii "GET /files/a.txt HTTP/1.1\r\n\r\n") []).add 29, 0⟩⟩
      (by decide) (by decide)).1,
    (file_request_path_fits (ascii "GET /files/a.txt HTTP/1.1\r\n\r\n") []
      ⟨⟨recv_buffer (ascii "GET /files/a.txt HTTP/1.1\r\n\r\n") [], 3⟩,
        ⟨(recv_buffer (ascii "GET /files/a.txt HTTP/1.1\r\n\r\n") []).add 4, 12⟩,
        ⟨(recv_buffer (ascii "GET /files/a.txt HTTP/1.1\r\n\r\n") []).add 17, 8⟩,
        SV_LITERAL (ascii ""), 0,
        ⟨(recv_buffer (ascii "GET /files/a.txt HTTP/1.1\r\n\r\n") []).add 29, 0⟩⟩
      (by decide) (by decide)).2.1⟩

/-! ## serve_file on a file that exists; the round trip -/

theorem get_mime_type_bounds (filename : List Nat) :
    0 ∉ get_mime_type filename ∧ (get_mime_type filename).length ≤ 24 := by
  unfold get_mime_type
  split
  · decide
  · split_ifs <;> decide

/-- For a file that exists and whose size fits a `long`, `serve_file` returns
having sent the header, which fits `char response_header[4096]`, and then the
bytes of the file. -/
theorem serve_file_existing (w : world) (file_path contents : List Nat)
    (h : file_contents w file_path = some contents) (hlen : contents.length < 2 ^ 63) :
    serve_file w file_path = Outcome.ret (send (log_fopen w file_path)
      (ascii "HTTP/1.1 200 OK\r\n" ++ ascii "Content-Type: " ++ get_mime_type file_path ++
        ascii "\r\n" ++ ascii "Content-Length: " ++ fmt_decimal contents.length ++
        ascii "\r\n" ++ ascii "\r\n" ++ contents)) := by
  have hf : file_contents (log_fopen w file_path) file_path = some contents := h
  obtain ⟨hm0, hml⟩ := get_mime_type_bounds file_path
  have hpow : (2 : Nat) ^ 63 < 10 ^ 19 := by norm_num
  have hdl : (fmt_decimal contents.length).length ≤ 19 :=
    decimal_digits_length_le _ _ 19 (by omega) (lt_trans hlen hpow)
  have hn1 : 0 ∉ ascii "HTTP/1.1 200 OK\r\n" := by decide
  have hn2 : 0 ∉ ascii "Content-Type: " := by decide
  have hn3 : 0 ∉ ascii "\r\n" := by decide
  have hn4 : 0 ∉ ascii "Content-Length: " := by decide
  have h1 : (ascii "HTTP/1.1 200 OK\r\n").length = 17 := by decide
  have h2 : (ascii "Content-Type: ").length = 14 := by decide
  have h3 : (ascii "\r\n").length = 2 := by decide
  have h4 : (ascii "Content-Length: ").length = 16 := by decide
  have hhdr : c_str (c_snprintf 4096
      (ascii "HTTP/1.1 200 OK\r\n" ++ ascii "Content-Type: " ++ get_mime_type file_path ++
        ascii "\r\n" ++ ascii "Content-Length: " ++ fmt_decimal contents.length ++
        ascii "\r\n" ++ ascii "\r\n")) =
      ascii "HTTP/1.1 200 OK\r\n" ++ ascii "Content-Type: " ++ get_mime_type file_path ++
        ascii "\r\n" ++ ascii "Content-Length: " ++ fmt_decimal contents.length ++
        ascii "\r\n" ++ ascii "\r\n" := by
    unfold c_snprintf
    rw [List.take_of_length_le]
    · apply c_str_of_no_nul
      simp only [List.mem_append, not_or]
      exact ⟨⟨⟨⟨⟨⟨⟨hn1, hn2⟩, hm0⟩, hn3⟩, hn4⟩, fmt_decimal_no_nul _⟩, hn3⟩, hn3⟩
    · simp only [List.length_append, h1, h2, h3, h4]
      omega
  unfold serve_file
  simp only [hf]
  rw [hhdr, serve_file_loop_returns _ _ _ (Nat.lt_succ_self _), send_send]

theorem handle_file_request_post_foo (w : world) (body : string_view) (content_length : Nat) :
    handle_file_request w (view (ascii "POST")) (view (ascii "/files/foo.txt")) body
      content_length = post_file w (ascii "./files/foo.txt") body content_length := by
  have h1 : c_strstr (c_str (file_request_path (view (ascii "/files/foo.txt"))).bytes)
      (ascii "..") = false := by decide
  have h2 : sv_equals (view (ascii "POST")) (SV_LITERAL (ascii "GET")) true = false := by decide
  have h3 : sv_equals (view (ascii "POST")) (SV_LITERAL (ascii "POST")) true = true := by decide
  have h4 : c_snprintf 4096
      (ascii "./files/" ++ c_str (file_request_path (view (ascii "/files/foo.txt"))).bytes) =
      ascii "./files/foo.txt" := by decide
  rw [handle_file_request_of_short _ _ _ _ _ (by decide), h1, h2, h3, h4]
  rfl

theorem handle_file_request_get_foo (w : world) (body : string_view) (content_length : Nat) :
    handle_file_request w (view (ascii "GET")) (view (ascii "/files/foo.txt")) body
      content_length = serve_file w (ascii "./files/foo.txt") := by
  have h1 : c_strstr (c_str (file_request_path (view (ascii "/files/foo.txt"))).bytes)
      (ascii "..") = false := by decide
  have h2 : sv_equals (view (ascii "GET")) (SV_LITERAL (ascii "GET")) true = true := by decide
  have h4 : c_snprintf 4096
      (ascii "./files/" ++ c_str (file_request_path (view (ascii "/files/foo.txt"))).bytes) =
      ascii "./files/foo.txt" := by decide
  rw [handle_file_request_of_short _ _ _ _ _ (by decide), h1, h2, h4]
  rfl

/-- C15: a `POST` to `/files/foo.txt` in a world where that file can be opened
for writing, with the bytes `B` = the buffered body followed by the non-empty
`chunks` that the calls of `recv` return, `Content-Length` = |B| < 2^63:
`handle_file_request` returns having sent exactly the 201 response, the file
`./files/foo.txt` holds exactly `B`, and the results of `recv` after the chunks
are left.  In every world with these files, a `GET` of `/files/foo.txt` then
returns having sent exactly the 200 header of type `text/plain` with
`Content-Length` the decimal digits of |B|, followed by exactly the bytes of
`B`. -/
theorem upload_download_round_trip (w : world) (body : string_view)
    (chunks : List (List Nat)) (rest : List recv_result)
    (hbody : body.InBuf) (hrw : ascii "./files/foo.txt" ∉ w.readonly)
    (hin : w.incoming = chunks.map recv_result.data ++ rest) (hne : ∀ c ∈ chunks, c ≠ [])
    (hB : (body.bytes ++ chunks.flatten).length < 2 ^ 63) :
    ∃ w1, handle_file_request w (view (ascii "POST")) (view (ascii "/files/foo.txt")) body
        (body.bytes ++ chunks.flatten).length = Outcome.ret w1 ∧
      w1.sent = w.sent ++ ascii "HTTP/1.1 201 Created\r\n\r\n" ∧
      file_contents w1 (ascii "./files/foo.txt") = some (body.bytes ++ chunks.flatten) ∧
      w1.incoming = rest ∧
      ∀ (w2 : world) (body2 : string_view) (content_length2 : Nat), w2.files = w1.files →
        ∃ w3, handle_file_request w2 (view (ascii "GET")) (view (ascii "/files/foo.txt")) body2
            content_length2 = Outcome.ret w3 ∧
          w3.sent = w2.sent ++
            (ascii "HTTP/1.1 200 OK\r\nContent-Type: text/plain\r\nContent-Length: " ++
              fmt_decimal (body.bytes ++ chunks.flatten).length ++ ascii "\r\n\r\n" ++
              (body.bytes ++ chunks.flatten)) ∧
          number_of_digits (fmt_decimal (body.bytes ++ chunks.flatten).length) =
            (body.bytes ++ chunks.flatten).length := by
  obtain ⟨w0, hstart, hs0, _, _, hf0⟩ :=
    post_file_start w (ascii "./files/foo.txt") body (body.bytes ++ chunks.flatten).length
      hrw hbody
  have hsum : body.size + chunks.flatten.length = (body.bytes ++ chunks.flatten).length := by
    rw [List.length_append, bytes_length body hbody]
  obtain ⟨w1, hret, hsent, hinc, _, _, hfile⟩ :=
    post_file_loop_complete (ascii "./files/foo.txt") (body.bytes ++ chunks.flatten).length
      chunks rest w0 body.bytes body.size hne hsum hf0
  refine ⟨w1, ?_, ?_, hfile, hinc, ?_⟩
  · rw [handle_file_request_post_foo, hstart, hin, hret]
  · have hc : response_201 = ascii "HTTP/1.1 201 Created\r\n\r\n" := by decide
    rw [hsent, hs0, hc]
  · intro w2 body2 cl2 hfiles
    have hf2 : file_contents w2 (ascii "./files/foo.txt") = some (body.bytes ++ chunks.flatten) := by
      unfold file_contents at hfile ⊢
      rw [hfiles]
      exact hfile
    rw [handle_file_request_get_foo, serve_file_existing w2 _ _ hf2 hB]
    refine ⟨_, rfl, ?_, number_of_digits_fmt_decimal _⟩
    · have hmime : get_mime_type (ascii "./files/foo.txt") = ascii "text/plain" := by decide
      have hhead : ascii "HTTP/1.1 200 OK\r\n" ++ ascii "Content-Type: " ++ ascii "text/plain" ++
          ascii "\r\n" ++ ascii "Content-Length: " =
          ascii "HTTP/1.1 200 OK\r\nContent-Type: text/plain\r\nContent-Length: " := by decide
      have htail : ascii "\r\n" ++ ascii "\r\n" = ascii "\r\n\r\n" := by decide
      simp only [send, log_fopen, hmime]
      rw [← hhead, ← htail]
      simp only [List.append_assoc]

/-- C15 at a concrete input: the body `hel` is buffered, `recv` then returns
`lo`. -/
theorem upload_download_round_trip_witness :
    ∃ w1, handle_file_request ⟨[], [], [recv_result.data (ascii "lo")], [], 0, []⟩
        (view (ascii "POST")) (view (ascii "/files/foo.txt")) (view (ascii "hel"))
        ((view (ascii "hel")).bytes ++ [ascii "lo"].flatten).length = Outcome.ret w1 ∧
      file_contents w1 (ascii "./files/foo.txt") =
        some ((view (ascii "hel")).bytes ++ [ascii "lo"].flatten) :=
  match upload_download_round_trip ⟨[], [], [recv_result.data (ascii "lo")], [], 0, []⟩
    (view (ascii "hel")) [ascii "lo"] [] (by decide) (by decide) (by decide) (by decide)
    (by decide) with
  | ⟨w1, h1, _, h3, _⟩ => ⟨w1, h1, h3⟩

end Webserver
